import Mathlib

set_option maxRecDepth 1000000

/-!
Verification of the fuzzy ranking engine of the my_alfred_workflow repository.

Python strings are embedded as `List Char`; Python `float` arithmetic is
embedded as exact rational arithmetic in `ℚ` (`int()` on the non-negative
values that occur becomes `Int.floor`); Python machine integers are `ℤ`.
Candidate dictionaries are embedded as insertion-ordered association lists,
matching Python 3.7+ `dict` semantics (updating an existing key keeps its
position, a new key is appended).

`difflib.SequenceMatcher(None, a, b).ratio()` is embedded below
(`findLongestMatch`, `matchTotal`, `ratVal`): with `isjunk=None` the junk set
is empty, the two extension loops of `find_longest_match` cannot extend a
maximal block, and the function returns the longest matching block, earliest
in `a` and then in `b`; `get_matching_blocks` recurses on the two windows
around that block and `ratio` is `2*M/(len a + len b)` over the summed block
sizes, or `1.0` for two empty sequences.  The `autojunk` popularity
heuristic, which only affects sequences of length at least 200, is not
modelled.  `str.lower` is modelled on the ASCII range.
-/

namespace MyAlfred

/-- Python `str.lower` on one character, modelled on the ASCII range. -/
def pyLower (c : Char) : Char :=
  if 'A' ≤ c ∧ c ≤ 'Z' then Char.ofNat (c.toNat + 32) else c

/-- Python `s.lower()` for a string embedded as `List Char`. -/
def lowerL (s : List Char) : List Char := s.map pyLower

/-- Length of the longest common prefix of two sequences. -/
def commonPrefixLen : List Char → List Char → Nat
  | x :: xs, y :: ys => if x = y then commonPrefixLen xs ys + 1 else 0
  | _, _ => 0

/-- All window start pairs `(i, j)` in lexicographic order, as scanned by
`SequenceMatcher.find_longest_match` (ascending `i`, then ascending `j`). -/
def matchPairs (a b : List Char) : List (Nat × Nat) :=
  (List.range a.length).flatMap fun i => (List.range b.length).map fun j => (i, j)

/-- One step of the scan: a candidate block at `(i, j)` replaces the best
block only when strictly longer, so the earliest maximal block is kept. -/
def flmStep (a b : List Char) (best : Nat × Nat × Nat) (p : Nat × Nat) :
    Nat × Nat × Nat :=
  if best.2.2 < commonPrefixLen (a.drop p.1) (b.drop p.2) then
    (p.1, p.2, commonPrefixLen (a.drop p.1) (b.drop p.2))
  else best

/-- `SequenceMatcher.find_longest_match` over the whole sequences (junk-free
case): the longest matching block `(i, j, k)` with `a[i:i+k] == b[j:j+k]`,
earliest in `a`, then earliest in `b`; `(0, 0, 0)` when nothing matches. -/
def findLongestMatch (a b : List Char) : Nat × Nat × Nat :=
  (matchPairs a b).foldl (flmStep a b) (0, 0, 0)

/-- Total size of the matching blocks of `get_matching_blocks`, written with
structural fuel (any `fuel ≥ a.length` is enough, see `matchTotalF_fuel`). -/
def matchTotalF : Nat → List Char → List Char → Nat
  | 0, _, _ => 0
  | n + 1, a, b =>
    if (findLongestMatch a b).2.2 = 0 then 0
    else
      matchTotalF n (a.take (findLongestMatch a b).1)
          (b.take (findLongestMatch a b).2.1) +
        (findLongestMatch a b).2.2 +
        matchTotalF n
          (a.drop ((findLongestMatch a b).1 + (findLongestMatch a b).2.2))
          (b.drop ((findLongestMatch a b).2.1 + (findLongestMatch a b).2.2))

/-- `matches`: the summed size of all matching blocks of the two sequences. -/
def matchTotal (a b : List Char) : Nat := matchTotalF a.length a b

/-- `SequenceMatcher(None, a, b).ratio()`: `2*M/(len a + len b)`, and `1`
when both sequences are empty (`difflib._calculate_ratio`). -/
def ratVal (a b : List Char) : ℚ :=
  if a.length + b.length = 0 then 1
  else (2 * matchTotal a b : ℚ) / (a.length + b.length)

/-- `similarity(a, b)` of `ssh_launcher.py`: the ratio of the lowercased
strings. -/
def similarity (a b : List Char) : ℚ := ratVal (lowerL a) (lowerL b)

theorem commonPrefixLen_le_left (x y : List Char) :
    commonPrefixLen x y ≤ x.length := by
  induction x generalizing y with
  | nil => simp [commonPrefixLen]
  | cons a as ih =>
    cases y with
    | nil => simp [commonPrefixLen]
    | cons b bs =>
      simp only [commonPrefixLen]
      split
      · simpa using ih bs
      · simp

theorem commonPrefixLen_le_right (x y : List Char) :
    commonPrefixLen x y ≤ y.length := by
  induction x generalizing y with
  | nil => simp [commonPrefixLen]
  | cons a as ih =>
    cases y with
    | nil => simp [commonPrefixLen]
    | cons b bs =>
      simp only [commonPrefixLen]
      split
      · simpa using ih bs
      · simp

theorem commonPrefixLen_take (x y : List Char) :
    x.take (commonPrefixLen x y) = y.take (commonPrefixLen x y) := by
  induction x generalizing y with
  | nil => simp [commonPrefixLen]
  | cons a as ih =>
    cases y with
    | nil => simp [commonPrefixLen]
    | cons b bs =>
      simp only [commonPrefixLen]
      split
      · rename_i h
        simp [List.take_succ_cons, h, ih bs]
      · simp

theorem commonPrefixLen_self (x : List Char) : commonPrefixLen x x = x.length := by
  induction x with
  | nil => simp [commonPrefixLen]
  | cons a as ih => simp [commonPrefixLen, ih]

theorem mem_matchPairs {a b : List Char} {p : Nat × Nat}
    (h : p ∈ matchPairs a b) : p.1 < a.length ∧ p.2 < b.length := by
  simp only [matchPairs, List.mem_flatMap, List.mem_map, List.mem_range] at h
  obtain ⟨i, hi, j, hj, rfl⟩ := h
  exact ⟨hi, hj⟩

/-- Invariant of the best block kept by the scan: it fits in both sequences
and its two pieces are equal. -/
def GoodBlock (a b : List Char) (m : Nat × Nat × Nat) : Prop :=
  m.1 + m.2.2 ≤ a.length ∧ m.2.1 + m.2.2 ≤ b.length ∧
    (a.drop m.1).take m.2.2 = (b.drop m.2.1).take m.2.2

theorem goodBlock_flmStep (a b : List Char) {m : Nat × Nat × Nat}
    (hm : GoodBlock a b m) (p : Nat × Nat) (hp : p ∈ matchPairs a b) :
    GoodBlock a b (flmStep a b m p) := by
  unfold flmStep
  split
  · obtain ⟨h1, h2⟩ := mem_matchPairs hp
    refine ⟨?_, ?_, ?_⟩
    · have := commonPrefixLen_le_left (a.drop p.1) (b.drop p.2)
      simp only [List.length_drop] at this
      simp only []
      omega
    · have := commonPrefixLen_le_right (a.drop p.1) (b.drop p.2)
      simp only [List.length_drop] at this
      simp only []
      omega
    · exact commonPrefixLen_take (a.drop p.1) (b.drop p.2)
  · exact hm

theorem findLongestMatch_good (a b : List Char) :
    GoodBlock a b (findLongestMatch a b) := by
  unfold findLongestMatch
  refine List.foldlRecOn (matchPairs a b) (flmStep a b) (0, 0, 0) ?_ ?_
  · exact ⟨by simp, by simp, by simp⟩
  · intro m hm p hp
    exact goodBlock_flmStep a b hm p hp

theorem flmStep_size_mono (a b : List Char) (m : Nat × Nat × Nat)
    (p : Nat × Nat) : m.2.2 ≤ (flmStep a b m p).2.2 := by
  unfold flmStep
  split
  · rename_i h
    simp only []
    omega
  · exact le_refl _

theorem foldl_flmStep_size_mono (a b : List Char) (l : List (Nat × Nat))
    (m : Nat × Nat × Nat) : m.2.2 ≤ (l.foldl (flmStep a b) m).2.2 := by
  induction l generalizing m with
  | nil => simp
  | cons p t ih => exact le_trans (flmStep_size_mono a b m p) (ih _)

theorem foldl_flmStep_ge (a b : List Char) (l : List (Nat × Nat))
    (m : Nat × Nat × Nat) {p : Nat × Nat} (hp : p ∈ l) :
    commonPrefixLen (a.drop p.1) (b.drop p.2) ≤ (l.foldl (flmStep a b) m).2.2 := by
  induction l generalizing m with
  | nil => cases hp
  | cons q t ih =>
    rcases List.mem_cons.mp hp with h | h
    · subst h
      refine le_trans ?_ (foldl_flmStep_size_mono a b t (flmStep a b m p))
      unfold flmStep
      split
      · exact le_refl _
      · omega
    · exact ih (flmStep a b m q) h

/-- The size of the block found is at least the size of any diagonal or
off-diagonal candidate block, in particular the full length for `a = a`. -/
theorem findLongestMatch_self (a : List Char) (h : 0 < a.length) :
    findLongestMatch a a = (0, 0, a.length) := by
  have hmem : ((0, 0) : Nat × Nat) ∈ matchPairs a a := by
    simp only [matchPairs, List.mem_flatMap, List.mem_map, List.mem_range]
    exact ⟨0, h, 0, h, rfl⟩
  have hge : commonPrefixLen (a.drop 0) (a.drop 0) ≤ (findLongestMatch a a).2.2 :=
    foldl_flmStep_ge a a (matchPairs a a) (0, 0, 0) hmem
  simp only [List.drop_zero, commonPrefixLen_self] at hge
  have hgood := findLongestMatch_good a a
  obtain ⟨h1, h2, _⟩ := hgood
  have e2 : (findLongestMatch a a).2.2 = a.length := le_antisymm (by omega) hge
  have e0 : (findLongestMatch a a).1 = 0 := by omega
  have e1 : (findLongestMatch a a).2.1 = 0 := by omega
  exact Prod.ext e0 (Prod.ext e1 e2)

theorem matchTotalF_nil_left (n : Nat) (b : List Char) :
    matchTotalF n [] b = 0 := by
  cases n with
  | zero => rfl
  | succ n =>
    simp only [matchTotalF]
    have : findLongestMatch [] b = (0, 0, 0) := by
      unfold findLongestMatch matchPairs
      simp
    simp [this]

theorem matchTotalF_le_min (n : Nat) (a b : List Char) (hn : a.length ≤ n) :
    matchTotalF n a b ≤ min a.length b.length := by
  induction n generalizing a b with
  | zero => simp [matchTotalF]
  | succ n ih =>
    simp only [matchTotalF]
    split
    · simp
    · rename_i hk
      obtain ⟨h1, h2, _⟩ := findLongestMatch_good a b
      have ht := ih (a.take (findLongestMatch a b).1) (b.take (findLongestMatch a b).2.1)
        (by simp [List.length_take]; omega)
      have hd := ih (a.drop ((findLongestMatch a b).1 + (findLongestMatch a b).2.2))
        (b.drop ((findLongestMatch a b).2.1 + (findLongestMatch a b).2.2))
        (by simp [List.length_drop]; omega)
      simp only [List.length_take, List.length_drop] at ht hd
      omega

theorem matchTotal_le_min (a b : List Char) :
    matchTotal a b ≤ min a.length b.length :=
  matchTotalF_le_min a.length a b (le_refl _)

theorem matchTotal_self (a : List Char) : matchTotal a a = a.length := by
  unfold matchTotal
  rcases Nat.eq_zero_or_pos a.length with h0 | h
  · have : a = [] := List.length_eq_zero.mp h0
    subst this
    rfl
  · obtain ⟨n, hn⟩ : ∃ n, a.length = n + 1 := ⟨a.length - 1, by omega⟩
    rw [hn]
    simp only [matchTotalF, findLongestMatch_self a h]
    rw [if_neg (by omega)]
    simp only [zero_add, List.take_zero, List.drop_length, matchTotalF_nil_left]
    omega

theorem matchTotalF_full (n : Nat) (a b : List Char) (hn : a.length ≤ n)
    (hab : matchTotalF n a b = a.length) (hlen : a.length = b.length) :
    a = b := by
  induction n generalizing a b with
  | zero =>
    simp only [matchTotalF] at hab
    have ha : a = [] := List.length_eq_zero.mp (by omega)
    have hb : b = [] := List.length_eq_zero.mp (by omega)
    rw [ha, hb]
  | succ n ih =>
    simp only [matchTotalF] at hab
    split at hab
    · have ha : a = [] := List.length_eq_zero.mp (by omega)
      have hb : b = [] := List.length_eq_zero.mp (by omega)
      rw [ha, hb]
    · rename_i hk
      obtain ⟨h1, h2, hblk⟩ := findLongestMatch_good a b
      set i := (findLongestMatch a b).1 with hi
      set j := (findLongestMatch a b).2.1 with hj
      set k := (findLongestMatch a b).2.2 with hk2
      have ht := matchTotalF_le_min n (a.take i) (b.take j)
        (by simp [List.length_take]; omega)
      have hd := matchTotalF_le_min n
        (a.drop (i + k)) (b.drop (j + k)) (by simp [List.length_drop]; omega)
      simp only [List.length_take, List.length_drop] at ht hd
      have hij : i = j := by omega
      have hteq : matchTotalF n (a.take i) (b.take j) = i := by omega
      have hdeq : matchTotalF n (a.drop (i + k)) (b.drop (j + k)) = a.length - (i + k) := by
        omega
      have e1 : a.take i = b.take j := by
        refine ih (a.take i) (b.take j) ?_ ?_ ?_
        · simp [List.length_take]; omega
        · rw [hteq]; simp [List.length_take]; omega
        · simp [List.length_take]; omega
      have e3 : a.drop (i + k) = b.drop (j + k) := by
        refine ih (a.drop (i + k)) (b.drop (j + k)) ?_ ?_ ?_
        · simp [List.length_drop]; omega
        · rw [hdeq]; simp [List.length_drop]
        · simp [List.length_drop]; omega
      have da : a = a.take i ++ ((a.drop i).take k ++ (a.drop i).drop k) := by
        rw [List.take_append_drop, List.take_append_drop]
      have db : b = b.take j ++ ((b.drop j).take k ++ (b.drop j).drop k) := by
        rw [List.take_append_drop, List.take_append_drop]
      rw [da, db, e1, hblk]
      congr 1
      congr 1
      rw [List.drop_drop, List.drop_drop]
      exact e3

theorem matchTotal_full {a b : List Char} (hab : matchTotal a b = a.length)
    (hlen : a.length = b.length) : a = b :=
  matchTotalF_full a.length a b (le_refl _) hab hlen

theorem ratVal_nonneg (a b : List Char) : 0 ≤ ratVal a b := by
  unfold ratVal
  split
  · norm_num
  · positivity

theorem ratVal_le_one (a b : List Char) : ratVal a b ≤ 1 := by
  unfold ratVal
  split
  · norm_num
  · rename_i h
    have hm := matchTotal_le_min a b
    have hpos : (0 : ℚ) < (a.length : ℚ) + (b.length : ℚ) := by
      have h0 : 0 < a.length + b.length := Nat.pos_of_ne_zero h
      exact_mod_cast h0
    rw [div_le_one hpos]
    have h2 : 2 * matchTotal a b ≤ a.length + b.length := by omega
    exact_mod_cast h2

theorem ratVal_eq_one_iff (a b : List Char) : ratVal a b = 1 ↔ a = b := by
  unfold ratVal
  split
  · rename_i h
    have ha : a = [] := List.length_eq_zero.mp (by omega)
    have hb : b = [] := List.length_eq_zero.mp (by omega)
    subst ha hb
    simp
  · rename_i h
    have hpos : (0 : ℚ) < (a.length : ℚ) + (b.length : ℚ) := by
      have h0 : 0 < a.length + b.length := Nat.pos_of_ne_zero h
      exact_mod_cast h0
    constructor
    · intro he
      rw [div_eq_one_iff_eq (ne_of_gt hpos)] at he
      have h2 : 2 * matchTotal a b = a.length + b.length := by exact_mod_cast he
      have hm := matchTotal_le_min a b
      have hlen : a.length = b.length := by omega
      have hma : matchTotal a b = a.length := by omega
      exact matchTotal_full hma hlen
    · intro he
      subst he
      rw [matchTotal_self]
      rw [div_eq_one_iff_eq (ne_of_gt hpos)]
      ring

theorem ratVal_empty_left (b : List Char) (hb : b ≠ []) : ratVal [] b = 0 := by
  unfold ratVal
  have hb0 : 0 < b.length := List.length_pos.mpr hb
  rw [if_neg (by simp only [List.length_nil, Nat.zero_add]; omega)]
  have h0 : matchTotal [] b = 0 := rfl
  rw [h0]
  norm_num

theorem ratVal_empty_right (a : List Char) (ha : a ≠ []) : ratVal a [] = 0 := by
  unfold ratVal
  have ha0 : 0 < a.length := List.length_pos.mpr ha
  rw [if_neg (by simp only [List.length_nil, Nat.add_zero]; omega)]
  have h0 : matchTotal a [] = 0 :=
    Nat.le_zero.mp (le_trans (matchTotal_le_min a []) (by simp))
  rw [h0]
  norm_num

theorem lowerL_eq_nil_iff (a : List Char) : lowerL a = [] ↔ a = [] := by
  unfold lowerL
  simp

/-- C9: for all strings `a` and `b`, `similarity(a, b)` lies in `[0, 1]`; it
equals `1.0` exactly when `a` and `b` are case-insensitively equal (hence
`similarity(x, x) = 1` and `similarity("", "") = 1`); and when exactly one
of `a`, `b` is empty the result is `0.0`. -/
theorem claimC9 (a b : List Char) :
    (0 ≤ similarity a b ∧ similarity a b ≤ 1) ∧
      (similarity a b = 1 ↔ lowerL a = lowerL b) ∧
      similarity a a = 1 ∧
      similarity [] [] = 1 ∧
      (a = [] → b ≠ [] → similarity a b = 0) ∧
      (a ≠ [] → b = [] → similarity a b = 0) := by
  refine ⟨⟨ratVal_nonneg _ _, ratVal_le_one _ _⟩, ?_, ?_, ?_, ?_, ?_⟩
  · exact ratVal_eq_one_iff (lowerL a) (lowerL b)
  · exact (ratVal_eq_one_iff (lowerL a) (lowerL a)).mpr rfl
  · exact (ratVal_eq_one_iff (lowerL []) (lowerL [])).mpr rfl
  · intro ha hb
    subst ha
    unfold similarity
    have : lowerL b ≠ [] := fun h => hb ((lowerL_eq_nil_iff b).mp h)
    exact ratVal_empty_left (lowerL b) this
  · intro ha hb
    subst hb
    unfold similarity
    have : lowerL a ≠ [] := fun h => ha ((lowerL_eq_nil_iff a).mp h)
    exact ratVal_empty_right (lowerL a) this

/-! ## Path domain: `code_with_zoxide.py` -/

/-- `MATCH_PATH_DEPTH` of `code_with_zoxide.py`. -/
def MATCH_PATH_DEPTH : Nat := 5

/-- `PART_MATCH_SCORE` of `code_with_zoxide.py`. -/
def PART_MATCH_SCORE : ℚ := 100

/-- `FULL_MATCH_SCORE` of `code_with_zoxide.py`. -/
def FULL_MATCH_SCORE : ℚ := 1000

/-- `ZOXIDE_RESULT_SCORE` of `code_with_zoxide.py`. -/
def ZOXIDE_RESULT_SCORE : Int := 10000

/-- Python `s.split(sep)` for a one-character separator: empty pieces are
kept, and splitting the empty string gives `[""]`. -/
def splitOnChar (c : Char) : List Char → List (List Char)
  | [] => [[]]
  | x :: xs =>
    if x = c then [] :: splitOnChar c xs
    else
      match splitOnChar c xs with
      | [] => [[x]]
      | h :: t => (x :: h) :: t

/-- `split_query = query.split(" ")` (line 42 of `code_with_zoxide.py`). -/
def splitQuery (query : List Char) : List (List Char) := splitOnChar ' ' query

/-- Joining with a one-character separator, the inverse of `splitOnChar`. -/
def joinWithChar (c : Char) : List (List Char) → List Char
  | [] => []
  | [t] => t
  | t :: ts => t ++ c :: joinWithChar c ts

/-- The score dictionary `result`: a `defaultdict(int)` embedded as an
insertion-ordered association list. -/
abbrev ScoreDict := List (List Char × Int)

/-- Lookup with default `0`, as `defaultdict(int)` reads. -/
def dget : ScoreDict → List Char → Int
  | [], _ => 0
  | e :: t, k => if e.1 = k then e.2 else dget t k

/-- `result[k] += v` on a `defaultdict(int)`: an existing key keeps its
position, a missing key is appended with value `v`. -/
def dadd : ScoreDict → List Char → Int → ScoreDict
  | [], k, v => [(k, v)]
  | e :: t, k, v => if e.1 = k then (e.1, e.2 + v) :: t else e :: dadd t k v

/-- The keys of the dictionary, in insertion order. -/
def keysOf (d : ScoreDict) : List (List Char) := d.map Prod.fst

/-- The inner score of one token against one segment (lines 52-56):
`FULL_MATCH_SCORE` when the ratio of the lowercased strings is at least
`0.8`, else `PART_MATCH_SCORE * ratio`. -/
def segScore (q seg : List Char) : ℚ :=
  if 4 / 5 ≤ ratVal (lowerL q) (lowerL seg) then FULL_MATCH_SCORE
  else PART_MATCH_SCORE * ratVal (lowerL q) (lowerL seg)

/-- `int(score * (MATCH_PATH_DEPTH - i) / MATCH_PATH_DEPTH)` (line 57); the
value is non-negative, so Python `int()` truncation is the floor. -/
def segDelta (q seg : List Char) (i : Nat) : Int :=
  Int.floor (segScore q seg * ((MATCH_PATH_DEPTH : ℚ) - (i : ℚ)) / (MATCH_PATH_DEPTH : ℚ))

/-- The loop `for i, folder_name in enumerate(reversed(folders))` of lines
47-57 for one token: break once `i >= MATCH_PATH_DEPTH`, skip empty
segments (their index is still consumed), else accumulate into `result[p]`. -/
def foldersGo (p q : List Char) : ScoreDict → Nat → List (List Char) → ScoreDict
  | d, _, [] => d
  | d, i, seg :: rest =>
    if MATCH_PATH_DEPTH ≤ i then d
    else if seg = [] then foldersGo p q d (i + 1) rest
    else foldersGo p q (dadd d p (segDelta q seg i)) (i + 1) rest

/-- Lines 44-57: the nested text-matching loops over paths, query tokens and
reversed path segments, accumulating into the score dictionary. -/
def calculateLoop (d : ScoreDict) (paths : List (List Char)) (query : List Char) :
    ScoreDict :=
  paths.foldl
    (fun d p =>
      (splitQuery query).foldl
        (fun d q => foldersGo p q d 0 (splitOnChar '/' p).reverse) d)
    d

/-- Lines 59-60: `if zoxide_result: result[zoxide_result] += ZOXIDE_RESULT_SCORE`
(a `defaultdict`, so an unknown hint path becomes a fresh entry). -/
def addZoxideBoost (zoxide_result : List Char) (d : ScoreDict) : ScoreDict :=
  if zoxide_result ≠ [] then dadd d zoxide_result ZOXIDE_RESULT_SCORE else d

/-- Line 63: `sorted(result.items(), key=lambda item: item[1], reverse=True)`,
a stable sort by score descending. -/
def sortByScore (d : ScoreDict) : ScoreDict :=
  d.insertionSort (fun x y => y.2 ≤ x.2)

/-- `"/src"` as a character list. -/
def srcSuffix : List Char := ['/', 's', 'r', 'c']

/-- `src_priority_sort_key` (lines 86-90): ascending lexicographic order on
`(0 or 1 for a "/src" suffix, minus the score)`. -/
def srcRel (x y : List Char × Int) : Prop :=
  (if srcSuffix <:+ x.1 then (0 : Int) else 1) < (if srcSuffix <:+ y.1 then (0 : Int) else 1) ∨
    ((if srcSuffix <:+ x.1 then (0 : Int) else 1) = (if srcSuffix <:+ y.1 then (0 : Int) else 1) ∧
      y.2 ≤ x.2)

instance : DecidableRel srcRel := fun x y => by
  unfold srcRel
  infer_instance

instance : IsTotal (List Char × Int) srcRel := by
  constructor
  intro x y
  unfold srcRel
  omega

instance : IsTrans (List Char × Int) srcRel := by
  constructor
  intro x y z hxy hyz
  unfold srcRel at hxy hyz ⊢
  omega

/-- Lines 66-93 with structural fuel: process entries in sorted order; a
leader collects every not-yet-processed strict descendant (prefix test on
`path + "/"`), the group is stably sorted by `src_priority_sort_key`, and
scanning continues on the remaining entries. -/
def hierarchyGoF : Nat → ScoreDict → ScoreDict
  | 0, _ => []
  | _ + 1, [] => []
  | n + 1, e :: rest =>
    (e :: rest.filter fun o => decide ((e.1 ++ ['/']) <+: o.1)).insertionSort srcRel ++
      hierarchyGoF n (rest.filter fun o => decide (¬ (e.1 ++ ['/']) <+: o.1))

/-- The hierarchy-aware reordering pass (lines 66-96). -/
def hierarchyPass (d : ScoreDict) : ScoreDict := hierarchyGoF d.length d

/-- `calculate_matching_scores(zoxide_result, paths, query)` (lines 35-97):
text-matching loop, recency boost, stable score sort, hierarchy pass. -/
def calculate_matching_scores (zoxide_result : List Char) (paths : List (List Char))
    (query : List Char) : ScoreDict :=
  hierarchyPass (sortByScore (addZoxideBoost zoxide_result (calculateLoop [] paths query)))

/-- The total contribution of one token to one path, summed over the
reversed segment list from a starting index, mirroring the loop. -/
def foldersSum (q : List Char) : Nat → List (List Char) → Int
  | _, [] => 0
  | i, seg :: rest =>
    if MATCH_PATH_DEPTH ≤ i then 0
    else if seg = [] then foldersSum q (i + 1) rest
    else segDelta q seg i + foldersSum q (i + 1) rest

/-- The text-matching score of one path for the whole query. -/
def pathTextScore (p query : List Char) : Int :=
  ((splitQuery query).map fun q => foldersSum q 0 (splitOnChar '/' p).reverse).sum

/-- A dictionary whose keys are pairwise distinct. -/
def NodupKeys (d : ScoreDict) : Prop := (keysOf d).Nodup

theorem dget_dadd (d : ScoreDict) (k : List Char) (v : Int) (k' : List Char) :
    dget (dadd d k v) k' = dget d k' + if k' = k then v else 0 := by
  induction d with
  | nil =>
    simp only [dadd, dget]
    by_cases h : k = k'
    · subst h
      simp
    · rw [if_neg h, if_neg (fun he => h he.symm)]
      simp
  | cons e t ih =>
    simp only [dadd]
    by_cases h : e.1 = k
    · subst h
      simp only [if_pos rfl, dget]
      by_cases h2 : e.1 = k'
      · subst h2
        simp
      · rw [if_neg h2, if_neg h2, if_neg (fun he => h2 he.symm)]
        simp
    · rw [if_neg h]
      simp only [dget]
      by_cases h2 : e.1 = k'
      · subst h2
        rw [if_pos rfl, if_pos rfl, if_neg h, add_zero]
      · rw [if_neg h2, if_neg h2, ih]

theorem keysOf_cons (e : List Char × Int) (t : ScoreDict) :
    keysOf (e :: t) = e.1 :: keysOf t := rfl

theorem keysOf_dadd_mem (d : ScoreDict) (k : List Char) (v : Int)
    (h : k ∈ keysOf d) : keysOf (dadd d k v) = keysOf d := by
  induction d with
  | nil => cases h
  | cons e t ih =>
    simp only [dadd]
    by_cases he : e.1 = k
    · rw [if_pos he, keysOf_cons, keysOf_cons]
    · rw [if_neg he, keysOf_cons, keysOf_cons]
      have hk : k ∈ keysOf t := by
        rw [keysOf_cons, List.mem_cons] at h
        rcases h with h | h
        · exact absurd h.symm he
        · exact h
      rw [ih hk]

theorem keysOf_dadd_not_mem (d : ScoreDict) (k : List Char) (v : Int)
    (h : k ∉ keysOf d) : keysOf (dadd d k v) = keysOf d ++ [k] := by
  induction d with
  | nil => simp [dadd, keysOf]
  | cons e t ih =>
    rw [keysOf_cons, List.mem_cons] at h
    push_neg at h
    simp only [dadd]
    rw [if_neg (fun he => h.1 he.symm), keysOf_cons, keysOf_cons, List.cons_append,
      ih h.2]

theorem nodupKeys_dadd (d : ScoreDict) (k : List Char) (v : Int)
    (h : NodupKeys d) : NodupKeys (dadd d k v) := by
  unfold NodupKeys
  by_cases hm : k ∈ keysOf d
  · rw [keysOf_dadd_mem d k v hm]
    exact h
  · rw [keysOf_dadd_not_mem d k v hm]
    refine List.Nodup.append h (List.nodup_singleton k) ?_
    intro a ha hb
    rw [List.mem_singleton] at hb
    subst hb
    exact hm ha

theorem mem_keysOf_dadd (d : ScoreDict) (k : List Char) (v : Int) (k' : List Char) :
    k' ∈ keysOf (dadd d k v) ↔ k' ∈ keysOf d ∨ k' = k := by
  by_cases hm : k ∈ keysOf d
  · rw [keysOf_dadd_mem d k v hm]
    constructor
    · exact Or.inl
    · rintro (h | rfl)
      · exact h
      · exact hm
  · rw [keysOf_dadd_not_mem d k v hm]
    simp

theorem foldersGo_dget (p q : List Char) (segs : List (List Char)) :
    ∀ (i : Nat) (d : ScoreDict) (k : List Char),
      dget (foldersGo p q d i segs) k =
        dget d k + if k = p then foldersSum q i segs else 0 := by
  induction segs with
  | nil => intro i d k; simp [foldersGo, foldersSum]
  | cons seg rest ih =>
    intro i d k
    simp only [foldersGo, foldersSum]
    by_cases h5 : MATCH_PATH_DEPTH ≤ i
    · rw [if_pos h5, if_pos h5]
      simp
    · rw [if_neg h5, if_neg h5]
      by_cases hseg : seg = []
      · rw [if_pos hseg, if_pos hseg, ih]
      · rw [if_neg hseg, if_neg hseg, ih, dget_dadd]
        by_cases hk : k = p
        · rw [if_pos hk, if_pos hk, if_pos hk]
          ring
        · rw [if_neg hk, if_neg hk, if_neg hk]
          ring

theorem foldersGo_keys_sub (p q : List Char) (segs : List (List Char)) :
    ∀ (i : Nat) (d : ScoreDict) (k : List Char),
      k ∈ keysOf (foldersGo p q d i segs) → k ∈ keysOf d ∨ k = p := by
  induction segs with
  | nil => intro i d k h; exact Or.inl h
  | cons seg rest ih =>
    intro i d k h
    simp only [foldersGo] at h
    split at h
    · exact Or.inl h
    · split at h
      · exact ih _ _ _ h
      · rcases ih _ _ _ h with h2 | h2
        · rcases (mem_keysOf_dadd d p (segDelta q seg i) k).mp h2 with h3 | h3
          · exact Or.inl h3
          · exact Or.inr h3
        · exact Or.inr h2

theorem foldersGo_keys_mono (p q : List Char) (segs : List (List Char)) :
    ∀ (i : Nat) (d : ScoreDict) (k : List Char),
      k ∈ keysOf d → k ∈ keysOf (foldersGo p q d i segs) := by
  induction segs with
  | nil => intro i d k h; exact h
  | cons seg rest ih =>
    intro i d k h
    simp only [foldersGo]
    split
    · exact h
    · split
      · exact ih _ _ _ h
      · exact ih _ _ _ ((mem_keysOf_dadd d p (segDelta q seg i) k).mpr (Or.inl h))

theorem foldersGo_nodup (p q : List Char) (segs : List (List Char)) :
    ∀ (i : Nat) (d : ScoreDict), NodupKeys d → NodupKeys (foldersGo p q d i segs) := by
  induction segs with
  | nil => intro i d h; exact h
  | cons seg rest ih =>
    intro i d h
    simp only [foldersGo]
    split
    · exact h
    · split
      · exact ih _ _ h
      · exact ih _ _ (nodupKeys_dadd d p (segDelta q seg i) h)

/-- One path's pass over all query tokens (the `for q in split_query` loop). -/
def pathStep (query : List Char) (d : ScoreDict) (p : List Char) : ScoreDict :=
  (splitQuery query).foldl (fun d q => foldersGo p q d 0 (splitOnChar '/' p).reverse) d

theorem pathStep_dget (query : List Char) (p : List Char) :
    ∀ (d : ScoreDict) (k : List Char),
      dget (pathStep query d p) k =
        dget d k + if k = p then pathTextScore p query else 0 := by
  unfold pathStep pathTextScore
  generalize splitQuery query = ts
  induction ts with
  | nil => intro d k; simp
  | cons t rest ih =>
    intro d k
    simp only [List.foldl_cons, List.map_cons, List.sum_cons]
    rw [ih, foldersGo_dget]
    by_cases hk : k = p
    · rw [if_pos hk, if_pos hk, if_pos hk]
      ring
    · rw [if_neg hk, if_neg hk, if_neg hk]
      ring

theorem pathStep_keys_sub (query p : List Char) :
    ∀ (d : ScoreDict) (k : List Char),
      k ∈ keysOf (pathStep query d p) → k ∈ keysOf d ∨ k = p := by
  unfold pathStep
  generalize splitQuery query = ts
  induction ts with
  | nil => intro d k h; exact Or.inl h
  | cons t rest ih =>
    intro d k h
    simp only [List.foldl_cons] at h
    rcases ih _ _ h with h2 | h2
    · exact foldersGo_keys_sub p t _ _ _ _ h2
    · exact Or.inr h2

theorem pathStep_keys_mono (query p : List Char) :
    ∀ (d : ScoreDict) (k : List Char),
      k ∈ keysOf d → k ∈ keysOf (pathStep query d p) := by
  unfold pathStep
  generalize splitQuery query = ts
  induction ts with
  | nil => intro d k h; exact h
  | cons t rest ih =>
    intro d k h
    simp only [List.foldl_cons]
    exact ih _ _ (foldersGo_keys_mono p t _ _ _ _ h)

theorem pathStep_nodup (query p : List Char) :
    ∀ (d : ScoreDict), NodupKeys d → NodupKeys (pathStep query d p) := by
  unfold pathStep
  generalize splitQuery query = ts
  induction ts with
  | nil => intro d h; exact h
  | cons t rest ih =>
    intro d h
    simp only [List.foldl_cons]
    exact ih _ (foldersGo_nodup p t _ _ _ h)

theorem calculateLoop_eq_foldl (d : ScoreDict) (paths : List (List Char))
    (query : List Char) : calculateLoop d paths query = paths.foldl (pathStep query) d := rfl

theorem calculateLoop_dget_not_mem (paths : List (List Char)) (query k : List Char)
    (hk : k ∉ paths) : ∀ d, dget (calculateLoop d paths query) k = dget d k := by
  induction paths with
  | nil => intro d; rfl
  | cons p rest ih =>
    intro d
    rw [List.mem_cons] at hk
    push_neg at hk
    rw [calculateLoop_eq_foldl, List.foldl_cons, ← calculateLoop_eq_foldl,
      ih hk.2, pathStep_dget, if_neg hk.1, add_zero]

theorem calculateLoop_dget_mem (paths : List (List Char)) (query k : List Char)
    (hn : paths.Nodup) (hk : k ∈ paths) :
    ∀ d, dget (calculateLoop d paths query) k = dget d k + pathTextScore k query := by
  induction paths with
  | nil => cases hk
  | cons p rest ih =>
    intro d
    rw [calculateLoop_eq_foldl, List.foldl_cons, ← calculateLoop_eq_foldl]
    rcases List.mem_cons.mp hk with h | h
    · subst h
      have hnot : k ∉ rest := (List.nodup_cons.mp hn).1
      rw [calculateLoop_dget_not_mem rest query k hnot, pathStep_dget, if_pos rfl]
    · have hne : k ≠ p := by
        rintro rfl
        exact (List.nodup_cons.mp hn).1 h
      rw [ih (List.nodup_cons.mp hn).2 h, pathStep_dget, if_neg hne, add_zero]

theorem calculateLoop_keys_sub (paths : List (List Char)) (query : List Char) :
    ∀ (d : ScoreDict) (k : List Char),
      k ∈ keysOf (calculateLoop d paths query) → k ∈ keysOf d ∨ k ∈ paths := by
  induction paths with
  | nil => intro d k h; exact Or.inl h
  | cons p rest ih =>
    intro d k h
    rw [calculateLoop_eq_foldl, List.foldl_cons, ← calculateLoop_eq_foldl] at h
    rcases ih _ _ h with h2 | h2
    · rcases pathStep_keys_sub query p _ _ h2 with h3 | h3
      · exact Or.inl h3
      · exact Or.inr (by rw [h3]; exact List.mem_cons_self p rest)
    · exact Or.inr (List.mem_cons_of_mem p h2)

theorem calculateLoop_nodup (paths : List (List Char)) (query : List Char) :
    ∀ (d : ScoreDict), NodupKeys d → NodupKeys (calculateLoop d paths query) := by
  induction paths with
  | nil => intro d h; exact h
  | cons p rest ih =>
    intro d h
    rw [calculateLoop_eq_foldl, List.foldl_cons, ← calculateLoop_eq_foldl]
    exact ih _ (pathStep_nodup query p d h)

theorem nodupKeys_perm {d d' : ScoreDict} (h : d.Perm d') (hn : NodupKeys d) :
    NodupKeys d' := by
  unfold NodupKeys keysOf at *
  exact (List.Perm.nodup_iff (List.Perm.map Prod.fst h)).mp hn

theorem mem_keysOf_perm {d d' : ScoreDict} (h : d.Perm d') (k : List Char) :
    k ∈ keysOf d ↔ k ∈ keysOf d' :=
  (List.Perm.map Prod.fst h).mem_iff

theorem dget_perm {d d' : ScoreDict} (h : d.Perm d') (hn : NodupKeys d)
    (k : List Char) : dget d k = dget d' k := by
  induction h with
  | nil => rfl
  | cons e h ih =>
    simp only [dget]
    by_cases he : e.1 = k
    · rw [if_pos he, if_pos he]
    · rw [if_neg he, if_neg he]
      exact ih (List.Nodup.of_cons hn)
  | swap x y l =>
    have hxy : y.1 ≠ x.1 := by
      have h2 := hn
      unfold NodupKeys keysOf at h2
      simp only [List.map_cons, List.nodup_cons, List.mem_cons] at h2
      exact fun he => h2.1 (Or.inl he)
    simp only [dget]
    by_cases hy : y.1 = k
    · have hx : ¬ x.1 = k := fun hx => hxy (hy.trans hx.symm)
      rw [if_pos hy, if_neg hx, if_pos hy]
    · by_cases hx : x.1 = k
      · rw [if_neg hy, if_pos hx, if_pos hx]
      · rw [if_neg hy, if_neg hx, if_neg hx, if_neg hy]
  | trans h₁ h₂ ih₁ ih₂ =>
    rw [ih₁ hn, ih₂ (nodupKeys_perm h₁ hn)]

theorem sortByScore_perm (d : ScoreDict) : (sortByScore d).Perm d :=
  List.perm_insertionSort _ d

theorem hierarchyGoF_perm : ∀ (n : Nat) (d : ScoreDict), d.length ≤ n →
    (hierarchyGoF n d).Perm d := by
  intro n
  induction n with
  | zero =>
    intro d hd
    have : d = [] := List.length_eq_zero.mp (Nat.le_zero.mp hd)
    subst this
    rfl
  | succ n ih =>
    intro d hd
    match d with
    | [] => rfl
    | e :: rest =>
      simp only [hierarchyGoF]
      have hdesc : ((rest.filter fun o => decide ((e.1 ++ ['/']) <+: o.1)) ++
          (rest.filter fun o => decide (¬ (e.1 ++ ['/']) <+: o.1))).Perm rest := by
        have h2 := List.filter_append_perm (fun o => decide ((e.1 ++ ['/']) <+: o.1)) rest
        simpa [decide_not] using h2
      have hothers : ((rest.filter fun o => decide (¬ (e.1 ++ ['/']) <+: o.1)).length ≤ n) := by
        have h1 := List.length_filter_le (fun o => decide (¬ (e.1 ++ ['/']) <+: o.1)) rest
        simp only [List.length_cons] at hd
        omega
      refine List.Perm.trans
        (List.Perm.append (List.perm_insertionSort _ _) (ih _ hothers)) ?_
      rw [List.cons_append]
      exact List.Perm.cons e hdesc

theorem hierarchyPass_perm (d : ScoreDict) : (hierarchyPass d).Perm d :=
  hierarchyGoF_perm d.length d (le_refl _)

/-- The returned dictionary agrees, as a map, with the dictionary before the
sort and the hierarchy pass. -/
theorem calculate_perm (z : List Char) (paths : List (List Char)) (query : List Char) :
    (calculate_matching_scores z paths query).Perm
      (addZoxideBoost z (calculateLoop [] paths query)) := by
  unfold calculate_matching_scores
  exact (hierarchyPass_perm _).trans (sortByScore_perm _)

theorem calculate_dget (z : List Char) (paths : List (List Char)) (query k : List Char)
    (hn : NodupKeys (addZoxideBoost z (calculateLoop [] paths query))) :
    dget (calculate_matching_scores z paths query) k =
      dget (addZoxideBoost z (calculateLoop [] paths query)) k := by
  have hp := calculate_perm z paths query
  exact dget_perm hp (nodupKeys_perm hp.symm hn) k

/-! ## Query tokenisation (`query.split(" ")`) -/

theorem splitOnChar_ne_nil (c : Char) (l : List Char) : splitOnChar c l ≠ [] := by
  cases l with
  | nil => simp [splitOnChar]
  | cons x xs =>
    simp only [splitOnChar]
    split
    · simp
    · split <;> simp

theorem joinWithChar_cons2 (c : Char) (t u : List Char) (ts : List (List Char)) :
    joinWithChar c (t :: u :: ts) = t ++ c :: joinWithChar c (u :: ts) := rfl

theorem join_splitOnChar (c : Char) (l : List Char) :
    joinWithChar c (splitOnChar c l) = l := by
  induction l with
  | nil => rfl
  | cons x xs ih =>
    simp only [splitOnChar]
    rcases hs : splitOnChar c xs with _ | ⟨h2, t2⟩
    · exact absurd hs (splitOnChar_ne_nil c xs)
    · rw [hs] at ih
      by_cases hx : x = c
      · rw [if_pos hx, joinWithChar_cons2, ih, hx]
        rfl
      · rw [if_neg hx]
        cases t2 with
        | nil =>
          show x :: h2 = x :: xs
          have h3 : h2 = xs := ih
          rw [h3]
        | cons u ts =>
          rw [joinWithChar_cons2, List.cons_append]
          rw [joinWithChar_cons2] at ih
          rw [ih]

theorem splitOnChar_not_mem (c : Char) (l : List Char) :
    ∀ t ∈ splitOnChar c l, c ∉ t := by
  induction l with
  | nil =>
    intro t ht
    simp only [splitOnChar, List.mem_singleton] at ht
    subst ht
    simp
  | cons x xs ih =>
    intro t ht
    simp only [splitOnChar] at ht
    rcases hs : splitOnChar c xs with _ | ⟨h2, t2⟩
    · exact absurd hs (splitOnChar_ne_nil c xs)
    · rw [hs] at ht ih
      split at ht
      · rcases List.mem_cons.mp ht with rfl | h3
        · simp
        · exact ih t (hs ▸ h3)
      · rename_i hx
        rcases List.mem_cons.mp ht with rfl | h3
        · intro hc
          rcases List.mem_cons.mp hc with rfl | hc2
          · exact hx rfl
          · exact ih h2 (List.mem_cons_self h2 t2) hc2
        · exact ih t (List.mem_cons_of_mem h2 h3)

theorem segDelta_empty_token (seg : List Char) (hs : seg ≠ []) (i : Nat) :
    segDelta [] seg i = 0 := by
  unfold segDelta segScore
  have h0 : ratVal (lowerL []) (lowerL seg) = 0 :=
    ratVal_empty_left _ (by rwa [Ne, lowerL_eq_nil_iff])
  rw [h0, if_neg (by norm_num)]
  norm_num [PART_MATCH_SCORE]

theorem foldersSum_empty_token : ∀ (segs : List (List Char)) (i : Nat),
    foldersSum [] i segs = 0 := by
  intro segs
  induction segs with
  | nil => intro i; rfl
  | cons seg rest ih =>
    intro i
    simp only [foldersSum]
    split
    · rfl
    · split
      · exact ih (i + 1)
      · rename_i hseg
        rw [segDelta_empty_token seg hseg i, ih (i + 1)]
        simp

theorem sum_foldersSum_filter (ts : List (List Char)) (segs : List (List Char)) :
    (ts.map fun t => foldersSum t 0 segs).sum =
      ((ts.filter fun t => decide (t ≠ [])).map fun t => foldersSum t 0 segs).sum := by
  induction ts with
  | nil => rfl
  | cons t rest ih =>
    simp only [List.map_cons, List.sum_cons, List.filter_cons]
    by_cases ht : t = []
    · subst ht
      have hb : (decide (([] : List Char) ≠ [])) = false := by decide
      simp only [hb, Bool.false_eq_true, if_false, foldersSum_empty_token, zero_add]
      exact ih
    · have hb : (decide (t ≠ [])) = true := by simp [ht]
      simp only [hb, if_true, List.map_cons, List.sum_cons]
      rw [ih]

/-- C6 (amended): `query.split(" ")` splits on single space characters (the
pieces joined with one space give back the query, and no piece contains a
space), and the empty tokens it KEEPS (the claim wrongly says they are
discarded) contribute nothing to any path's text score. -/
theorem claimC6 (query : List Char) :
    joinWithChar ' ' (splitQuery query) = query ∧
      (∀ t ∈ splitQuery query, ' ' ∉ t) ∧
      ∀ segs : List (List Char),
        ((splitQuery query).map fun t => foldersSum t 0 segs).sum =
          (((splitQuery query).filter fun t => decide (t ≠ [])).map fun t =>
            foldersSum t 0 segs).sum := by
  refine ⟨join_splitOnChar ' ' query, splitOnChar_not_mem ' ' query, ?_⟩
  intro segs
  exact sum_foldersSum_filter (splitQuery query) segs

/-- C6 counterexample: on the query `"a  b"` (two spaces) the token list the
code builds does contain the empty string. -/
theorem claimC6_counterexample :
    splitQuery ("a  b".toList) = ["a".toList, [], "b".toList] ∧
      ([] : List Char) ∈ splitQuery ("a  b".toList) := by
  constructor <;> decide

/-! ## C5: the per-path text score -/

/-- The score formula exactly as claim C5 words it: for every (non-empty)
query token, enumerate the last `MATCH_PATH_DEPTH` NON-EMPTY segments from
the tail with `i = 0` at the deepest one — empty segments do not consume
depth indices. -/
def pathScoreSpecC5 (p query : List Char) : Int :=
  (((splitQuery query).filter fun t => decide (t ≠ [])).map fun t =>
    (((((splitOnChar '/' p).filter fun s => decide (s ≠ [])).reverse.take
      MATCH_PATH_DEPTH).enum).map fun is => segDelta t is.2 is.1).sum).sum

/-- The formula the code implements: the enumeration indices run over ALL
segments of the reversed split (empty segments are skipped for scoring but
still consume their index), stopping once the index reaches
`MATCH_PATH_DEPTH`. -/
def pathScoreAmendedC5 (p query : List Char) : Int :=
  (((splitQuery query).filter fun t => decide (t ≠ [])).map fun t =>
    ((((splitOnChar '/' p).reverse.enum.takeWhile fun is =>
        decide (is.1 < MATCH_PATH_DEPTH)).filter fun is =>
        decide (is.2 ≠ [])).map fun is => segDelta t is.2 is.1).sum).sum

theorem foldersSum_eq_enumFrom (t : List Char) : ∀ (segs : List (List Char)) (i : Nat),
    foldersSum t i segs =
      ((((segs.enumFrom i).takeWhile fun is => decide (is.1 < MATCH_PATH_DEPTH)).filter
        fun is => decide (is.2 ≠ [])).map fun is => segDelta t is.2 is.1).sum := by
  intro segs
  induction segs with
  | nil => intro i; rfl
  | cons seg rest ih =>
    intro i
    show foldersSum t i (seg :: rest) = _
    rw [List.enumFrom_cons, List.takeWhile_cons]
    simp only [foldersSum]
    by_cases h5 : MATCH_PATH_DEPTH ≤ i
    · have hbi : (decide (i < MATCH_PATH_DEPTH)) = false := by simpa using h5
      rw [if_pos h5, hbi]
      simp only [Bool.false_eq_true, if_false]
      rfl
    · have hbi : (decide (i < MATCH_PATH_DEPTH)) = true := by
        simpa using Nat.lt_of_not_le h5
      rw [if_neg h5, hbi]
      simp only [if_true, List.filter_cons]
      by_cases hseg : seg = []
      · have hb : (decide ((i, seg).2 ≠ [])) = false := by simp [hseg]
        rw [if_pos hseg, hb]
        simp only [Bool.false_eq_true, if_false]
        exact ih (i + 1)
      · have hb : (decide ((i, seg).2 ≠ [])) = true := by simp [hseg]
        rw [if_neg hseg, hb]
        simp only [if_true, List.map_cons, List.sum_cons]
        rw [ih (i + 1)]

theorem pathTextScore_eq_amended (p query : List Char) :
    pathTextScore p query = pathScoreAmendedC5 p query := by
  unfold pathTextScore pathScoreAmendedC5
  rw [sum_foldersSum_filter]
  congr 1
  refine List.map_congr_left ?_
  intro t _
  rw [foldersSum_eq_enumFrom]
  rfl

/-- C5 (amended): for every candidate path, the accumulated text-matching
score is the sum, over every non-empty query token and the last
`MATCH_PATH_DEPTH` entries of the reversed segment list — empty segments
skipped for scoring but still consuming their depth index — of
`floor(contribution * (MATCH_PATH_DEPTH - i) / MATCH_PATH_DEPTH)`. -/
theorem claimC5 (paths : List (List Char)) (query p : List Char) (hn : paths.Nodup) :
    dget (calculateLoop [] paths query) p =
      if p ∈ paths then pathScoreAmendedC5 p query else 0 := by
  by_cases hp : p ∈ paths
  · rw [if_pos hp, calculateLoop_dget_mem paths query p hn hp [],
      pathTextScore_eq_amended, show dget ([] : ScoreDict) p = 0 from rfl, zero_add]
  · rw [if_neg hp, calculateLoop_dget_not_mem paths query p hp []]
    rfl

theorem claimC5_witness :
    dget (calculateLoop [] [("a".toList)] ("a".toList)) ("a".toList) =
      if ("a".toList) ∈ [("a".toList)] then
        pathScoreAmendedC5 ("a".toList) ("a".toList) else 0 :=
  claimC5 [("a".toList)] ("a".toList) ("a".toList) (by decide)

/-- C5 counterexample: on the path `"x/"` (one trailing empty segment) and
query `"x"`, the code weights the only real segment with depth index `1`
(the empty tail segment consumed index `0`) and accumulates `800`, while the
claim's formula, which skips empty segments in the indexing, gives `1000`. -/
theorem claimC5_counterexample :
    dget (calculateLoop [] [("x/".toList)] ("x".toList)) ("x/".toList) = 800 ∧
      pathScoreSpecC5 ("x/".toList) ("x".toList) = 1000 := by
  have hr : ratVal (lowerL ("x".toList)) (lowerL ("x".toList)) = 1 :=
    (ratVal_eq_one_iff _ _).mpr rfl
  have hd1 : segDelta ("x".toList) ("x".toList) 1 = 800 := by
    unfold segDelta segScore
    rw [hr, if_pos (by norm_num)]
    rw [show FULL_MATCH_SCORE * ((MATCH_PATH_DEPTH : ℚ) - (1 : Nat)) / (MATCH_PATH_DEPTH : ℚ)
        = ((800 : Int) : ℚ) by norm_num [FULL_MATCH_SCORE, MATCH_PATH_DEPTH]]
    exact Int.floor_intCast 800
  have hd0 : segDelta ("x".toList) ("x".toList) 0 = 1000 := by
    unfold segDelta segScore
    rw [hr, if_pos (by norm_num)]
    rw [show FULL_MATCH_SCORE * ((MATCH_PATH_DEPTH : ℚ) - (0 : Nat)) / (MATCH_PATH_DEPTH : ℚ)
        = ((1000 : Int) : ℚ) by norm_num [FULL_MATCH_SCORE, MATCH_PATH_DEPTH]]
    exact Int.floor_intCast 1000
  constructor
  · rw [show calculateLoop [] [("x/".toList)] ("x".toList) =
        [(("x/".toList), segDelta ("x".toList) ("x".toList) 1)] from rfl]
    rw [show dget [(("x/".toList), segDelta ("x".toList) ("x".toList) 1)] ("x/".toList) =
        segDelta ("x".toList) ("x".toList) 1 from if_pos rfl]
    exact hd1
  · rw [show pathScoreSpecC5 ("x/".toList) ("x".toList) =
        ([segDelta ("x".toList) ("x".toList) 0].sum : Int) + 0 from rfl]
    rw [List.sum_cons, List.sum_nil, add_zero, add_zero]
    exact hd0

/-! ## C1: the recency-hint boost -/

theorem nodupKeys_nil : NodupKeys [] := List.nodup_nil

theorem nodupKeys_addZoxideBoost (z : List Char) (d : ScoreDict) (h : NodupKeys d) :
    NodupKeys (addZoxideBoost z d) := by
  unfold addZoxideBoost
  split
  · exact nodupKeys_dadd d z ZOXIDE_RESULT_SCORE h
  · exact h

/-- C1 (amended): every candidate's returned total is its text score plus
`ZOXIDE_RESULT_SCORE` exactly when it equals the non-empty hint; but when a
non-empty hint matches no candidate, the hint itself enters the returned map
as a fresh key with score `ZOXIDE_RESULT_SCORE` (the dictionary is a
`defaultdict`), so the key set is the scored candidates PLUS the hint. -/
theorem claimC1 (z : List Char) (paths : List (List Char)) (query : List Char)
    (hn : paths.Nodup) :
    (∀ p ∈ paths, dget (calculate_matching_scores z paths query) p =
        pathTextScore p query +
          (if z = p ∧ z ≠ [] then ZOXIDE_RESULT_SCORE else 0)) ∧
      (z ≠ [] → z ∉ paths →
        dget (calculate_matching_scores z paths query) z = ZOXIDE_RESULT_SCORE) ∧
      (∀ k ∈ keysOf (calculate_matching_scores z paths query),
        k ∈ paths ∨ (z ≠ [] ∧ k = z)) := by
  have hL : NodupKeys (calculateLoop [] paths query) :=
    calculateLoop_nodup paths query [] nodupKeys_nil
  have hB : NodupKeys (addZoxideBoost z (calculateLoop [] paths query)) :=
    nodupKeys_addZoxideBoost z _ hL
  refine ⟨?_, ?_, ?_⟩
  · intro p hp
    rw [calculate_dget z paths query p hB]
    unfold addZoxideBoost
    by_cases hz : z ≠ []
    · rw [if_pos hz, dget_dadd, calculateLoop_dget_mem paths query p hn hp [],
        show dget ([] : ScoreDict) p = 0 from rfl, zero_add]
      by_cases hzp : p = z
      · rw [if_pos hzp, if_pos ⟨hzp.symm, hz⟩]
      · rw [if_neg hzp, if_neg (fun hc => hzp hc.1.symm), add_zero]
    · rw [if_neg hz, calculateLoop_dget_mem paths query p hn hp [],
        show dget ([] : ScoreDict) p = 0 from rfl, zero_add,
        if_neg (fun hc => hc.2 (not_not.mp hz)), add_zero]
  · intro hz hzp
    rw [calculate_dget z paths query z hB]
    unfold addZoxideBoost
    rw [if_pos hz, dget_dadd, calculateLoop_dget_not_mem paths query z hzp [],
      show dget ([] : ScoreDict) z = 0 from rfl, if_pos rfl, zero_add]
  · intro k hk
    rw [mem_keysOf_perm (calculate_perm z paths query)] at hk
    unfold addZoxideBoost at hk
    by_cases hz : z ≠ []
    · rw [if_pos hz] at hk
      rcases (mem_keysOf_dadd _ z ZOXIDE_RESULT_SCORE k).mp hk with h2 | h2
      · rcases calculateLoop_keys_sub paths query [] k h2 with h3 | h3
        · exact absurd h3 (List.not_mem_nil k)
        · exact Or.inl h3
      · exact Or.inr ⟨hz, h2⟩
    · rw [if_neg hz] at hk
      rcases calculateLoop_keys_sub paths query [] k hk with h3 | h3
      · exact absurd h3 (List.not_mem_nil k)
      · exact Or.inl h3

theorem claimC1_witness :
    (∀ p ∈ [("/a".toList)],
        dget (calculate_matching_scores ("/a".toList) [("/a".toList)] ("q".toList)) p =
          pathTextScore p ("q".toList) +
            (if ("/a".toList) = p ∧ ("/a".toList) ≠ ([] : List Char) then
              ZOXIDE_RESULT_SCORE else 0)) ∧
      (("/a".toList) ≠ ([] : List Char) → ("/a".toList) ∉ [("/a".toList)] →
        dget (calculate_matching_scores ("/a".toList) [("/a".toList)] ("q".toList))
          ("/a".toList) = ZOXIDE_RESULT_SCORE) ∧
      (∀ k ∈ keysOf (calculate_matching_scores ("/a".toList) [("/a".toList)] ("q".toList)),
        k ∈ [("/a".toList)] ∨ (("/a".toList) ≠ ([] : List Char) ∧ k = ("/a".toList))) :=
  claimC1 ("/a".toList) [("/a".toList)] ("q".toList) (by decide)

/-- C1 counterexample: with candidate list `["/a"]` and hint `"/b"` (which
equals no candidate), the returned score map contains the key `"/b"`, which
is not a supplied candidate path — refuting the claim that the map then
holds only the supplied candidates. -/
theorem claimC1_counterexample :
    ("/b".toList) ∈
        keysOf (calculate_matching_scores ("/b".toList) [("/a".toList)] ("a".toList)) ∧
      ("/b".toList) ∉ [("/a".toList)] := by
  constructor
  · rw [mem_keysOf_perm (calculate_perm ("/b".toList) [("/a".toList)] ("a".toList))]
    unfold addZoxideBoost
    rw [if_pos (by decide)]
    exact (mem_keysOf_dadd _ _ _ _).mpr (Or.inr rfl)
  · decide

/-! ## C4: the hierarchy-aware reordering pass -/

theorem srcRel_refl (x : List Char × Int) : srcRel x x := Or.inr ⟨rfl, le_refl _⟩

theorem indexOf_append_left (K1 K2 : List (List Char)) (a : List Char)
    (h : a ∈ K1) : (K1 ++ K2).indexOf a = K1.indexOf a := by
  induction K1 with
  | nil => cases h
  | cons b t ih =>
    rw [List.cons_append, List.indexOf_cons, List.indexOf_cons]
    cases hb : (b == a) with
    | true => simp only [cond_true]
    | false =>
      simp only [cond_false]
      rcases List.mem_cons.mp h with rfl | h2
      · simp at hb
      · rw [ih h2]

theorem indexOf_append_right (K1 K2 : List (List Char)) (a : List Char)
    (h : a ∉ K1) : (K1 ++ K2).indexOf a = K1.length + K2.indexOf a := by
  induction K1 with
  | nil => simp
  | cons b t ih =>
    rw [List.cons_append, List.indexOf_cons]
    have hb : (b == a) = false := by
      rw [beq_eq_false_iff_ne]
      intro he
      exact h (by rw [he]; exact List.mem_cons_self a t)
    rw [hb]
    simp only [cond_false, List.length_cons]
    rw [ih (fun h2 => h (List.mem_cons_of_mem b h2))]
    omega

/-- In a list that is pairwise ordered by `srcRel` and has distinct keys, an
entry that the relation strictly precedes appears at a strictly smaller key
index. -/
theorem srcRel_pairwise_before (g : ScoreDict) (hp : List.Pairwise srcRel g)
    (hn : NodupKeys g) (x y : List Char × Int) (hx : x ∈ g) (hy : y ∈ g)
    (hnot : ¬ srcRel y x) :
    (keysOf g).indexOf x.1 < (keysOf g).indexOf y.1 := by
  induction g with
  | nil => cases hx
  | cons e rest ih =>
    have hpc := List.pairwise_cons.mp hp
    have hn2 : (e.1 :: keysOf rest).Nodup := hn
    rcases List.mem_cons.mp hx with rfl | hx2
    · have hy2 : y ∈ rest := by
        rcases List.mem_cons.mp hy with rfl | h2
        · exact absurd (srcRel_refl y) hnot
        · exact h2
      have hyne : y.1 ≠ x.1 := by
        intro he
        exact (List.nodup_cons.mp hn2).1 (List.mem_map.mpr ⟨y, hy2, he⟩)
      rw [keysOf_cons, List.indexOf_cons, List.indexOf_cons]
      have h1 : (x.1 == x.1) = true := by simp
      have h2 : (x.1 == y.1) = false := by
        rw [beq_eq_false_iff_ne]
        exact fun he => hyne he.symm
      rw [h1, h2]
      simp only [cond_true, cond_false]
      omega
    · rcases List.mem_cons.mp hy with rfl | hy2
      · exact absurd (hpc.1 x hx2) hnot
      · have hxne : x.1 ≠ e.1 :=
          fun he => (List.nodup_cons.mp hn2).1 (List.mem_map.mpr ⟨x, hx2, he⟩)
        have hyne : y.1 ≠ e.1 :=
          fun he => (List.nodup_cons.mp hn2).1 (List.mem_map.mpr ⟨y, hy2, he⟩)
        rw [keysOf_cons, List.indexOf_cons, List.indexOf_cons]
        have h1 : (e.1 == x.1) = false := by
          rw [beq_eq_false_iff_ne]
          exact fun he => hxne he.symm
        have h2 : (e.1 == y.1) = false := by
          rw [beq_eq_false_iff_ne]
          exact fun he => hyne he.symm
        rw [h1, h2]
        simp only [cond_false]
        have h3 := ih hpc.2 (List.nodup_cons.mp hn2).2 hx2 hy2
        omega

/-- If `q + "/"` is a string prefix of `P + "/src"`, then it is a prefix of
`P` itself, or `q = P`: the boundary cases `q = P + "/s"` etc. are ruled out
because the character at position `|q|` would have to be both `'/'` and one
of `'s'`, `'r'`, `'c'`. -/
theorem prefix_src_cases (q P : List Char)
    (h : (q ++ ['/']) <+: (P ++ srcSuffix)) : (q ++ ['/']) <+: P ∨ q = P := by
  have hlen : q.length + 1 ≤ P.length + 4 := by
    have h2 := h.length_le
    simp only [List.length_append, List.length_cons, List.length_nil] at h2
    simp only [srcSuffix, List.length_cons, List.length_nil] at h2
    omega
  rcases Nat.lt_trichotomy q.length P.length with hlt | heq | hgt
  · left
    rw [List.prefix_iff_eq_take] at h ⊢
    rw [List.take_append_of_le_length (by simp; omega)] at h
    exact h
  · right
    have hq : q <+: (P ++ srcSuffix) := (List.prefix_append q ['/']).trans h
    rw [List.prefix_iff_eq_take, List.take_append_of_le_length (by omega), heq,
      List.take_length] at hq
    exact hq
  · exfalso
    obtain ⟨t, ht⟩ := h
    have hd : ((q.drop P.length) ++ ['/']) ++ t = srcSuffix := by
      have h1 := congrArg (List.drop P.length) ht
      rw [List.drop_append_of_le_length (by simp; omega),
        List.drop_append_of_le_length (by omega),
        List.drop_append_of_le_length (le_refl _), List.drop_length] at h1
      simpa using h1
    have hdl : (q.drop P.length).length = q.length - P.length := by simp
    rcases hq : q.drop P.length with _ | ⟨a, tl⟩
    · rw [hq] at hdl
      simp at hdl
      omega
    · rw [hq] at hd
      rcases tl with _ | ⟨b, tl2⟩
      · simp [srcSuffix] at hd
      · rcases tl2 with _ | ⟨c2, tl3⟩
        · simp [srcSuffix] at hd
        · rcases tl3 with _ | ⟨d2, tl4⟩
          · simp [srcSuffix] at hd
          · rw [hq] at hdl
            simp at hdl
            omega

theorem keysOf_append (a b : ScoreDict) : keysOf (a ++ b) = keysOf a ++ keysOf b :=
  List.map_append _ _ _

theorem indexOf_mem_lt_length (K : List (List Char)) (a : List Char) (h : a ∈ K) :
    K.indexOf a < K.length := by
  induction K with
  | nil => cases h
  | cons b t ih =>
    rw [List.indexOf_cons]
    cases hb : (b == a) with
    | true => simp
    | false =>
      simp only [cond_false, List.length_cons]
      have h2 : a ∈ t := by
        rcases List.mem_cons.mp h with rfl | h3
        · simp at hb
        · exact h3
      have := ih h2
      omega

/-- The hierarchy pass puts the key `P ++ "/src"` strictly before the key
`P` whenever both are present and `P` itself does not end in `"/src"`. -/
theorem hierarchyGoF_src_before :
    ∀ (n : Nat) (l : ScoreDict), l.length ≤ n → NodupKeys l →
      ∀ P : List Char, ¬ (srcSuffix <:+ P) →
        P ∈ keysOf l → (P ++ srcSuffix) ∈ keysOf l →
        (keysOf (hierarchyGoF n l)).indexOf (P ++ srcSuffix) <
          (keysOf (hierarchyGoF n l)).indexOf P := by
  intro n
  induction n with
  | zero =>
    intro l hl _ P _ hP _
    have h0 : l = [] := List.length_eq_zero.mp (Nat.le_zero.mp hl)
    subst h0
    exact absurd hP (List.not_mem_nil P)
  | succ n ih =>
    intro l hl hn P hsrc hP hC
    match l with
    | [] => exact absurd hP (List.not_mem_nil P)
    | e :: rest =>
      simp only [hierarchyGoF]
      set desc := rest.filter (fun o => decide ((e.1 ++ ['/']) <+: o.1)) with hdesc
      set others := rest.filter (fun o => decide (¬ (e.1 ++ ['/']) <+: o.1)) with hothers
      set grp := (e :: desc).insertionSort srcRel with hgrp
      have hn2 : (e.1 :: keysOf rest).Nodup := hn
      have hPC : P ≠ P ++ srcSuffix := by
        intro he
        have h2 := congrArg List.length he
        simp [srcSuffix] at h2
      have hsrcC : srcSuffix <:+ (P ++ srcSuffix) := List.suffix_append P srcSuffix
      have hPl : P = e.1 ∨ P ∈ keysOf rest := by
        rw [keysOf_cons] at hP
        exact List.mem_cons.mp hP
      have hCl : P ++ srcSuffix = e.1 ∨ P ++ srcSuffix ∈ keysOf rest := by
        rw [keysOf_cons] at hC
        exact List.mem_cons.mp hC
      have hsub : (e :: desc).Sublist (e :: rest) := by
        rw [hdesc]
        exact List.Sublist.cons₂ e (List.filter_sublist rest)
      have hgdnodup : NodupKeys (e :: desc) :=
        List.Nodup.sublist (List.Sublist.map Prod.fst hsub) hn
      have hgrpnodup : NodupKeys grp :=
        nodupKeys_perm (List.perm_insertionSort srcRel (e :: desc)).symm hgdnodup
      have honodup : NodupKeys others := by
        rw [hothers]
        refine List.Nodup.sublist (List.Sublist.map Prod.fst ?_) hn
        exact List.Sublist.cons e (List.filter_sublist rest)
      have holen : others.length ≤ n := by
        rw [hothers]
        have h1 := List.length_filter_le (fun o => decide (¬ (e.1 ++ ['/']) <+: o.1)) rest
        simp only [List.length_cons] at hl
        omega
      have hgrpmem : ∀ k : List Char, k ∈ keysOf grp ↔ k ∈ keysOf (e :: desc) :=
        fun k => mem_keysOf_perm (List.perm_insertionSort srcRel (e :: desc)) k
      rw [keysOf_append]
      by_cases hPg : P ∈ keysOf (e :: desc)
      · by_cases hCg : (P ++ srcSuffix) ∈ keysOf (e :: desc)
        · -- both in the group: the tier ordering of the group sort decides
          have hCgrp : (P ++ srcSuffix) ∈ keysOf grp := (hgrpmem _).mpr hCg
          have hPgrp : P ∈ keysOf grp := (hgrpmem _).mpr hPg
          obtain ⟨xC, hxCmem, hxC1⟩ := List.mem_map.mp hCgrp
          obtain ⟨xP, hxPmem, hxP1⟩ := List.mem_map.mp hPgrp
          have hsorted : List.Pairwise srcRel grp :=
            List.sorted_insertionSort srcRel (e :: desc)
          have hnot : ¬ srcRel xP xC := by
            unfold srcRel
            rw [hxP1, hxC1, if_neg hsrc, if_pos hsrcC]
            push_neg
            constructor
            · omega
            · intro h2
              exact absurd h2 (by omega)
          have hres := srcRel_pairwise_before grp hsorted hgrpnodup xC xP hxCmem
            hxPmem hnot
          rw [hxC1, hxP1] at hres
          rw [indexOf_append_left _ _ _ hCgrp, indexOf_append_left _ _ _ hPgrp]
          exact hres
        · -- parent in the group but child outside: impossible
          exfalso
          rcases hCl with hCe | hCrest
          · exact hCg (by rw [keysOf_cons, hCe]; exact List.mem_cons_self _ _)
          · obtain ⟨oC, hoCrest, hoC1⟩ := List.mem_map.mp hCrest
            have hPg2 : P = e.1 ∨ P ∈ keysOf desc := by
              rw [keysOf_cons] at hPg
              exact List.mem_cons.mp hPg
            have hpredC : (e.1 ++ ['/']) <+: oC.1 := by
              rw [hoC1]
              rcases hPg2 with hPe | hPdesc
              · rw [show P ++ srcSuffix = (P ++ ['/']) ++ ['s', 'r', 'c'] from by
                  simp [srcSuffix], hPe]
                exact List.prefix_append _ _
              · obtain ⟨oP, hoPdesc, hoP1⟩ := List.mem_map.mp hPdesc
                rw [hdesc] at hoPdesc
                have hpredP := of_decide_eq_true (List.mem_filter.mp hoPdesc).2
                rw [hoP1] at hpredP
                exact hpredP.trans (List.prefix_append P srcSuffix)
            have hoCdesc : oC ∈ desc := by
              rw [hdesc]
              exact List.mem_filter.mpr ⟨hoCrest, decide_eq_true hpredC⟩
            exact hCg (by
              rw [keysOf_cons]
              exact List.mem_cons.mpr (Or.inr (List.mem_map.mpr ⟨oC, hoCdesc, hoC1⟩)))
      · by_cases hCg : (P ++ srcSuffix) ∈ keysOf (e :: desc)
        · -- child in the group, parent outside: parent must head a later group
          have hCg2 : P ++ srcSuffix = e.1 ∨ P ++ srcSuffix ∈ keysOf desc := by
            rw [keysOf_cons] at hCg
            exact List.mem_cons.mp hCg
          rcases hCg2 with hCe | hCdesc
          · have hPne : P ≠ e.1 := fun he => hPC (he.trans hCe.symm)
            have hPrest : P ∈ keysOf rest := by
              rcases hPl with h | h
              · exact absurd h hPne
              · exact h
            obtain ⟨oP, hoPrest, hoP1⟩ := List.mem_map.mp hPrest
            have hnotpred : ¬ ((e.1 ++ ['/']) <+: oP.1) := by
              rw [hoP1, ← hCe]
              intro hpre
              have hle := hpre.length_le
              simp only [List.length_append, srcSuffix, List.length_cons,
                List.length_nil] at hle
              omega
            have hPothers : P ∈ keysOf others := by
              rw [hothers]
              exact List.mem_map.mpr
                ⟨oP, List.mem_filter.mpr ⟨hoPrest, decide_eq_true hnotpred⟩, hoP1⟩
            have hCgrp : (P ++ srcSuffix) ∈ keysOf grp := (hgrpmem _).mpr hCg
            have hPnotgrp : P ∉ keysOf grp := fun h => hPg ((hgrpmem _).mp h)
            rw [indexOf_append_left _ _ _ hCgrp, indexOf_append_right _ _ _ hPnotgrp]
            have h4 := indexOf_mem_lt_length (keysOf grp) (P ++ srcSuffix) hCgrp
            omega
          · exfalso
            obtain ⟨oC, hoCdesc, hoC1⟩ := List.mem_map.mp hCdesc
            rw [hdesc] at hoCdesc
            have hpredC := of_decide_eq_true (List.mem_filter.mp hoCdesc).2
            rw [hoC1] at hpredC
            rcases prefix_src_cases e.1 P hpredC with hpp | hep
            · have hPne : P ≠ e.1 := fun he =>
                hPg (by rw [keysOf_cons, he]; exact List.mem_cons_self _ _)
              have hPrest : P ∈ keysOf rest := by
                rcases hPl with h | h
                · exact absurd h hPne
                · exact h
              obtain ⟨oP, hoPrest, hoP1⟩ := List.mem_map.mp hPrest
              have hoPdesc : oP ∈ desc := by
                rw [hdesc]
                exact List.mem_filter.mpr
                  ⟨hoPrest, decide_eq_true (by rw [hoP1]; exact hpp)⟩
              exact hPg (by
                rw [keysOf_cons]
                exact List.mem_cons.mpr (Or.inr (List.mem_map.mpr ⟨oP, hoPdesc, hoP1⟩)))
            · exact hPg (by rw [keysOf_cons, ← hep]; exact List.mem_cons_self _ _)
        · -- both outside the group: recurse on the unprocessed remainder
          have hPne : P ≠ e.1 := fun he =>
            hPg (by rw [keysOf_cons, he]; exact List.mem_cons_self _ _)
          have hCne : P ++ srcSuffix ≠ e.1 := fun he =>
            hCg (by rw [keysOf_cons, he]; exact List.mem_cons_self _ _)
          have hPrest : P ∈ keysOf rest := by
            rcases hPl with h | h
            · exact absurd h hPne
            · exact h
          have hCrest : P ++ srcSuffix ∈ keysOf rest := by
            rcases hCl with h | h
            · exact absurd h hCne
            · exact h
          obtain ⟨oP, hoPrest, hoP1⟩ := List.mem_map.mp hPrest
          obtain ⟨oC, hoCrest, hoC1⟩ := List.mem_map.mp hCrest
          have hnpP : ¬ ((e.1 ++ ['/']) <+: oP.1) := by
            intro hpre
            refine hPg ?_
            rw [keysOf_cons]
            refine List.mem_cons.mpr (Or.inr (List.mem_map.mpr ⟨oP, ?_, hoP1⟩))
            rw [hdesc]
            exact List.mem_filter.mpr ⟨hoPrest, decide_eq_true hpre⟩
          have hnpC : ¬ ((e.1 ++ ['/']) <+: oC.1) := by
            intro hpre
            refine hCg ?_
            rw [keysOf_cons]
            refine List.mem_cons.mpr (Or.inr (List.mem_map.mpr ⟨oC, ?_, hoC1⟩))
            rw [hdesc]
            exact List.mem_filter.mpr ⟨hoCrest, decide_eq_true hpre⟩
          have hPothers : P ∈ keysOf others := by
            rw [hothers]
            exact List.mem_map.mpr
              ⟨oP, List.mem_filter.mpr ⟨hoPrest, decide_eq_true hnpP⟩, hoP1⟩
          have hCothers : P ++ srcSuffix ∈ keysOf others := by
            rw [hothers]
            exact List.mem_map.mpr
              ⟨oC, List.mem_filter.mpr ⟨hoCrest, decide_eq_true hnpC⟩, hoC1⟩
          have hIH := ih others holen honodup P hsrc hPothers hCothers
          have hPnotgrp : P ∉ keysOf grp := fun h => hPg ((hgrpmem _).mp h)
          have hCnotgrp : P ++ srcSuffix ∉ keysOf grp := fun h => hCg ((hgrpmem _).mp h)
          rw [indexOf_append_right _ _ _ hCnotgrp, indexOf_append_right _ _ _ hPnotgrp]
          omega

/-- C4 (amended): in the final output ordering, for any parent path `P` that
does not itself end in `"/src"`, the child `P ++ "/src"` appears strictly
before `P` whenever both are present in the ranked set, regardless of their
scores.  (A parent that itself ends in `"/src"` shares the child's priority
tier and is then ordered by score, see the counterexample.) -/
theorem claimC4 (z : List Char) (paths : List (List Char)) (query P : List Char)
    (hsrc : ¬ (srcSuffix <:+ P))
    (hP : P ∈ keysOf (calculate_matching_scores z paths query))
    (hC : (P ++ srcSuffix) ∈ keysOf (calculate_matching_scores z paths query)) :
    (keysOf (calculate_matching_scores z paths query)).indexOf (P ++ srcSuffix) <
      (keysOf (calculate_matching_scores z paths query)).indexOf P := by
  have hnS : NodupKeys (sortByScore (addZoxideBoost z (calculateLoop [] paths query))) :=
    nodupKeys_perm (sortByScore_perm _).symm
      (nodupKeys_addZoxideBoost _ _ (calculateLoop_nodup _ _ _ nodupKeys_nil))
  unfold calculate_matching_scores hierarchyPass at hP hC ⊢
  refine hierarchyGoF_src_before _ _ (le_refl _) hnS P hsrc ?_ ?_
  · exact (mem_keysOf_perm (hierarchyGoF_perm _ _ (le_refl _)) P).mp hP
  · exact (mem_keysOf_perm (hierarchyGoF_perm _ _ (le_refl _)) (P ++ srcSuffix)).mp hC

theorem claimC4_witness :
    (keysOf (calculate_matching_scores [] [("a".toList), ("a/src".toList)] [])).indexOf
        ("a".toList ++ srcSuffix) <
      (keysOf (calculate_matching_scores [] [("a".toList), ("a/src".toList)] [])).indexOf
        ("a".toList) :=
  claimC4 [] [("a".toList), ("a/src".toList)] [] ("a".toList) (by decide)
    (by rw [mem_keysOf_perm (calculate_perm _ _ _)]; decide)
    (by rw [mem_keysOf_perm (calculate_perm _ _ _)]; decide)

/-- C4 counterexample: the paths `"/a/src"` (the parent `P`, itself ending
in `"/src"`) and `"/a/src/src"` (`P + "/src"`) are both in the ranked set,
yet the child comes after the parent in the final output, refuting the
unconditional claim. -/
theorem claimC4_counterexample :
    ("/a/src/src".toList) ∈
        keysOf (calculate_matching_scores [] [("/a/src".toList), ("/a/src/src".toList)] []) ∧
      ("/a/src".toList) ∈
        keysOf (calculate_matching_scores [] [("/a/src".toList), ("/a/src/src".toList)] []) ∧
      ¬ ((keysOf (calculate_matching_scores [] [("/a/src".toList), ("/a/src/src".toList)]
            [])).indexOf ("/a/src/src".toList) <
          (keysOf (calculate_matching_scores [] [("/a/src".toList), ("/a/src/src".toList)]
            [])).indexOf ("/a/src".toList)) := by
  have e1 : segDelta [] ("src".toList) 0 = 0 := segDelta_empty_token _ (by decide) 0
  have e2 : segDelta [] ("a".toList) 1 = 0 := segDelta_empty_token _ (by decide) 1
  have e4 : segDelta [] ("src".toList) 1 = 0 := segDelta_empty_token _ (by decide) 1
  have e5 : segDelta [] ("a".toList) 2 = 0 := segDelta_empty_token _ (by decide) 2
  have hv1 : segDelta [] ("src".toList) 0 + segDelta [] ("a".toList) 1 = 0 := by
    rw [e1, e2]
    rfl
  have hv2 : segDelta [] ("src".toList) 0 + segDelta [] ("src".toList) 1 +
      segDelta [] ("a".toList) 2 = 0 := by
    rw [e1, e4, e5]
    rfl
  have hL : calculateLoop [] [("/a/src".toList), ("/a/src/src".toList)] [] =
      [(("/a/src".toList), segDelta [] ("src".toList) 0 + segDelta [] ("a".toList) 1),
       (("/a/src/src".toList), segDelta [] ("src".toList) 0 +
          segDelta [] ("src".toList) 1 + segDelta [] ("a".toList) 2)] := rfl
  have hL0 : calculateLoop [] [("/a/src".toList), ("/a/src/src".toList)] [] =
      [(("/a/src".toList), 0), (("/a/src/src".toList), 0)] := by
    rw [hL, hv1, hv2]
  have hK : keysOf (calculate_matching_scores [] [("/a/src".toList), ("/a/src/src".toList)]
      []) = [("/a/src".toList), ("/a/src/src".toList)] := by
    unfold calculate_matching_scores
    rw [hL0]
    decide
  refine ⟨by rw [hK]; decide, by rw [hK]; decide, by rw [hK]; decide⟩

/-! ## Bookmark domain: `chrome_bookmarks.py` -/

/-- A bookmark record: a string-valued Python dict as an insertion-ordered
association list. -/
abbrev BmDict := List (List Char × List Char)

/-- `d[k]` read as an `Option` (`none` models a `KeyError`). -/
def bmGet : BmDict → List Char → Option (List Char)
  | [], _ => none
  | e :: t, k => if e.1 = k then some e.2 else bmGet t k

/-- The tiered per-bookmark score of lines 377-396, written over the already
lowercased (and optionally transliteration-augmented) name and the
lowercased url: the `if/elif` chain makes the tiers mutually exclusive, and
the accumulator starts at 0, so each branch IS the score. -/
def scoreBookmark (query_lower name url : List Char) : Int :=
  if query_lower = name then 1000
  else if query_lower <:+: name then 500
  else if query_lower <:+: url then 200
  else if 3 / 10 < ratVal query_lower name then Int.floor (ratVal query_lower name * 100)
  else 0

/-- The augmented name of lines 378-380: the lowercased name, plus the
concatenated `lazy_pinyin` tokens when the transliteration provider is
available (`lazy_pinyin` is a parameter; without `pypinyin` it returns `[]`
and the augmentation is a no-op). -/
def augmentedName (hasPinyin : Bool) (lazy_pinyin : List Char → List (List Char))
    (name0 : List Char) : List Char :=
  if hasPinyin then lowerL name0 ++ (lazy_pinyin (lowerL name0)).flatten
  else lowerL name0

/-- The scoring loop of lines 376-401: each record's `name` and `url` are
read with `bookmark["name"]` / `bookmark["url"]`, so one record missing
either key raises a `KeyError` (modelled as `Except.error`) and aborts the
whole batch; positive-score records are kept (as a copied record paired
with its `score` value). -/
def scoreAll (hasPinyin : Bool) (lazy_pinyin : List Char → List (List Char)) :
    List BmDict → List Char → Except Unit (List (BmDict × Int))
  | [], _ => Except.ok []
  | b :: rest, ql =>
    match bmGet b ("name".toList), bmGet b ("url".toList) with
    | some name0, some url0 =>
      match scoreAll hasPinyin lazy_pinyin rest ql with
      | Except.error e => Except.error e
      | Except.ok tail =>
        if 0 < scoreBookmark ql (augmentedName hasPinyin lazy_pinyin name0) (lowerL url0)
        then Except.ok ((b, scoreBookmark ql (augmentedName hasPinyin lazy_pinyin name0)
            (lowerL url0)) :: tail)
        else Except.ok tail
    | _, _ => Except.error ()

/-- `search_bookmarks(bookmarks, query)` (lines 366-405): pass the first 10
records through unscored on an empty query (`none` marks the absent `score`
key); otherwise score, stable-sort by score descending, truncate to 10. -/
def search_bookmarks (hasPinyin : Bool) (lazy_pinyin : List Char → List (List Char))
    (bookmarks : List BmDict) (query : List Char) :
    Except Unit (List (BmDict × Option Int)) :=
  if query = [] then Except.ok ((bookmarks.take 10).map fun b => (b, none))
  else
    match scoreAll hasPinyin lazy_pinyin bookmarks (lowerL query) with
    | Except.error e => Except.error e
    | Except.ok scored =>
      Except.ok (((scored.insertionSort fun x y => y.2 ≤ x.2).take 10).map
        fun e => (e.1, some e.2))

/-- The fields of `AlfredItem` these workflows populate (uid, icon, match,
autocomplete, text, quicklookurl, variables stay at their defaults and are
omitted); a modifier action is `(key, arg, subtitle)`. -/
structure AItem where
  title : List Char
  subtitle : Option (List Char)
  arg : Option (List Char)
  valid : Bool
  mods : List (List Char × List Char × List Char)
deriving DecidableEq

/-- The placeholder of lines 454-457 (`valid = False`). -/
def noBookmarksItem : AItem :=
  { title := ("No bookmarks found".toList),
    subtitle := some ("Try a different search term".toList),
    arg := none, valid := false, mods := [] }

/-- The item-building loop of lines 433-451: reads `bookmark["name"]` and
`bookmark["url"]`, so a missing key raises. -/
def buildBmItems : List (BmDict × Option Int) → Except Unit (List AItem)
  | [] => Except.ok []
  | (b, _) :: rest =>
    match bmGet b ("name".toList), bmGet b ("url".toList) with
    | some name, some url =>
      match buildBmItems rest with
      | Except.error e => Except.error e
      | Except.ok tail =>
        Except.ok
          ({ title := name
             subtitle := some url
             arg := some url
             valid := true
             mods := [(("cmd".toList), url, ("Copy URL to clipboard".toList)),
               (("alt".toList), name, ("Copy bookmark name to clipboard".toList))] } :: tail)
    | _, _ => Except.error ()

/-- `output_alfred_format(bookmarks, query)` (lines 426-459): search, build
items, and emit the single placeholder when no item was produced. -/
def output_alfred_format (hasPinyin : Bool) (lazy_pinyin : List Char → List (List Char))
    (bookmarks : List BmDict) (query : List Char) : Except Unit (List AItem) :=
  match search_bookmarks hasPinyin lazy_pinyin bookmarks query with
  | Except.error e => Except.error e
  | Except.ok filtered =>
    match buildBmItems filtered with
    | Except.error e => Except.error e
    | Except.ok items => if items = [] then Except.ok [noBookmarksItem] else Except.ok items

/-! ## Path-domain output: `main()` of `code_with_zoxide.py` -/

/-- The placeholder of lines 146-151 and 177-180 (`valid = False`). -/
def noResultsItem : AItem :=
  { title := ("No results found".toList),
    subtitle := some ("Try a different search term".toList),
    arg := none, valid := false, mods := [] }

/-- `replace_str_in_match` (lines 124-133), with the three root prefixes as
parameters (they come from the environment): the cosmetic label rewriting
used only for the display title. -/
def replace_str_in_match (home ws co m : List Char) : List Char :=
  if co <+: m ∧ m ≠ co then ("[company] ".toList) ++ m.drop co.length
  else if ws <+: m ∧ m ≠ ws then ("[workspace] ".toList) ++ m.drop ws.length
  else if home <+: m ∧ m ≠ home then ("[home] ".toList) ++ m.drop home.length
  else m

/-- One result row of lines 163-174. -/
def mkZoxideItem (home ws co p : List Char) : AItem :=
  { title := replace_str_in_match home ws co p,
    subtitle := some ("Open with VSCode".toList),
    arg := some p, valid := true,
    mods := [(("cmd".toList), p, ("Copy path to clipboard".toList)),
             (("alt".toList), p, ("Reveal in Finder".toList))] }

/-- `main()` of `code_with_zoxide.py` (lines 136-183), after the external
calls have supplied `paths` and `zoxide_result`: empty candidate set gives
the placeholder; otherwise the ranked entries are emitted, the loop breaking
at `i > 10` (so up to 11 items), with the placeholder again when no item
was produced. -/
def zoxideMain (home ws co : List Char) (zoxide_result : List Char)
    (paths : List (List Char)) (query : List Char) : List AItem :=
  if paths = [] then [noResultsItem]
  else
    match (calculate_matching_scores zoxide_result paths query).take 11 with
    | [] => [noResultsItem]
    | ms => ms.map fun e => mkZoxideItem home ws co e.1

/-! ## SSH domain: `ssh_launcher.py` -/

/-- A Python dict value in a host record: the parsed config supplies
strings; the scoring loop stores a float similarity. -/
inductive PyVal where
  | s : List Char → PyVal
  | f : ℚ → PyVal
deriving DecidableEq

/-- An SSH host record. -/
abbrev Host := List (List Char × PyVal)

def hGet : Host → List Char → Option PyVal
  | [], _ => none
  | e :: t, k => if e.1 = k then some e.2 else hGet t k

/-- `h[k] = v`: update in place or append. -/
def hSet : Host → List Char → PyVal → Host
  | [], k, v => [(k, v)]
  | e :: t, k, v => if e.1 = k then (e.1, v) :: t else e :: hSet t k v

/-- The string carried by a value (rendering of a float value is not
modelled: parser-produced host fields are strings). -/
def pvStr : PyVal → List Char
  | PyVal.s v => v
  | PyVal.f _ => []

/-- `host.get(k, default)` read as a string. -/
def hostGetStr (h : Host) (k dflt : List Char) : List Char :=
  match hGet h k with
  | some v => pvStr v
  | none => dflt

/-- `host.get("Host", "Unknown")` (lines 43 and 51). -/
def hostName (h : Host) : List Char := hostGetStr h ("Host".toList) ("Unknown".toList)

/-- `host["similarity"] = sim` (line 45): the in-place mutation of one input
host record. -/
def addSimilarity (query : List Char) (h : Host) : Host :=
  hSet h ("similarity".toList) (PyVal.f (similarity query (hostName h)))

/-- `x.get("similarity", 0)` as used by the sort and filter (lines 47-49);
after the mutation loop every host holds a float there. -/
def simKey (h : Host) : ℚ :=
  match hGet h ("similarity".toList) with
  | some (PyVal.f r) => r
  | _ => 0

/-- Lines 40-49: with a truthy query, store each host's similarity, stable
sort descending by it, and keep only those above `0.3`; with an empty query
pass all hosts through in order. -/
def rankedHosts (hosts : List Host) (query : List Char) : List Host :=
  if query ≠ [] then
    ((hosts.map (addSimilarity query)).insertionSort fun x y =>
      simKey y ≤ simKey x).filter fun h => decide ((3 : ℚ) / 10 < simKey h)
  else hosts

/-- The item dict of lines 60-73. -/
structure SshItem where
  title : List Char
  subtitle : List Char
  arg : List Char
  modArg : List Char
  modSubtitle : List Char
deriving DecidableEq

/-- Lines 57-59: `ssh_command = f"ssh {host_name}"`, and the user-present
branch assigns the very same string again. -/
def sshCommand (h : Host) : List Char :=
  if hostGetStr h ("User".toList) [] ≠ [] then ("ssh ".toList) ++ hostName h
  else ("ssh ".toList) ++ hostName h

/-- One feedback item (lines 50-74). -/
def mkSshItem (h : Host) : SshItem :=
  { title := hostName h
    subtitle := hostGetStr h ("HostName".toList) ("N/A".toList) ++
      ':' :: hostGetStr h ("Port".toList) ("22".toList)
    arg := sshCommand h
    modArg := hostGetStr h ("HostName".toList) ("N/A".toList) ++
      ':' :: hostGetStr h ("Port".toList) ("22".toList)
    modSubtitle := ("Copy ".toList) ++
      (hostGetStr h ("HostName".toList) ("N/A".toList) ++
        ':' :: hostGetStr h ("Port".toList) ("22".toList)) ++ (" to clipboard".toList) }

/-- `generate_feedback(hosts, query)` (lines 37-76): the emitted items, and
the post-call state of the caller's host records (the loop of lines 42-45
mutates them in place when the query is truthy). -/
def generate_feedback (hosts : List Host) (query : List Char) :
    List SshItem × List Host :=
  ((rankedHosts hosts query).map mkSshItem,
    if query ≠ [] then hosts.map (addSimilarity query) else hosts)

/-- `main()` of `ssh_launcher.py` (lines 79-91): a missing config file
prints `{"items": []}` — an empty item list —, otherwise the feedback
items. -/
def ssh_main_items (configExists : Bool) (hosts : List Host) (query : List Char) :
    List SshItem :=
  if configExists then (generate_feedback hosts query).1 else []

/-! ## C3: the bookmark scoring tiers -/

/-- C3: for every (augmented lowercased) name, url and non-empty lowercased
query, the bookmark score is decided by mutually exclusive tiers in order
(no summation), the fuzzy tier is `floor(ratio * 100)` when the ratio
exceeds `0.3` and `0` otherwise, every fuzzy-tier score is below 100, and
scores are never negative — so the bands `1000 > 500 > 200 > fuzzy` never
overlap. -/
theorem claimC3 (name url q : List Char) (hq : q ≠ []) :
    (q = name → scoreBookmark q name url = 1000) ∧
      (q ≠ name → q <:+: name → scoreBookmark q name url = 500) ∧
      (q ≠ name → ¬ (q <:+: name) → q <:+: url → scoreBookmark q name url = 200) ∧
      (q ≠ name → ¬ (q <:+: name) → ¬ (q <:+: url) →
        scoreBookmark q name url =
            (if 3 / 10 < ratVal q name then Int.floor (ratVal q name * 100) else 0) ∧
          scoreBookmark q name url < 100) ∧
      0 ≤ scoreBookmark q name url := by
  unfold scoreBookmark
  refine ⟨?_, ?_, ?_, ?_, ?_⟩
  · intro h
    rw [if_pos h]
  · intro h1 h2
    rw [if_neg h1, if_pos h2]
  · intro h1 h2 h3
    rw [if_neg h1, if_neg h2, if_pos h3]
  · intro h1 h2 h3
    rw [if_neg h1, if_neg h2, if_neg h3]
    refine ⟨rfl, ?_⟩
    by_cases hr : 3 / 10 < ratVal q name
    · rw [if_pos hr]
      have hlt : ratVal q name < 1 := by
        rcases lt_or_eq_of_le (ratVal_le_one q name) with h | h
        · exact h
        · exact absurd ((ratVal_eq_one_iff q name).mp h) h1
      have h5 : ratVal q name * 100 < ((100 : Int) : ℚ) := by
        push_cast
        nlinarith
      exact Int.floor_lt.mpr h5
    · rw [if_neg hr]
      norm_num
  · by_cases h1 : q = name
    · rw [if_pos h1]
      norm_num
    · rw [if_neg h1]
      by_cases h2 : q <:+: name
      · rw [if_pos h2]
        norm_num
      · rw [if_neg h2]
        by_cases h3 : q <:+: url
        · rw [if_pos h3]
          norm_num
        · rw [if_neg h3]
          by_cases hr : 3 / 10 < ratVal q name
          · rw [if_pos hr]
            refine Int.floor_nonneg.mpr ?_
            have h6 := ratVal_nonneg q name
            positivity
          · rw [if_neg hr]

theorem claimC3_witness :
    (("py".toList) = ("python".toList) →
        scoreBookmark ("py".toList) ("python".toList) ("u".toList) = 1000) ∧
      (("py".toList) ≠ ("python".toList) → ("py".toList) <:+: ("python".toList) →
        scoreBookmark ("py".toList) ("python".toList) ("u".toList) = 500) ∧
      (("py".toList) ≠ ("python".toList) → ¬ (("py".toList) <:+: ("python".toList)) →
        ("py".toList) <:+: ("u".toList) →
        scoreBookmark ("py".toList) ("python".toList) ("u".toList) = 200) ∧
      (("py".toList) ≠ ("python".toList) → ¬ (("py".toList) <:+: ("python".toList)) →
        ¬ (("py".toList) <:+: ("u".toList)) →
        scoreBookmark ("py".toList) ("python".toList) ("u".toList) =
            (if 3 / 10 < ratVal ("py".toList) ("python".toList) then
              Int.floor (ratVal ("py".toList) ("python".toList) * 100) else 0) ∧
          scoreBookmark ("py".toList) ("python".toList) ("u".toList) < 100) ∧
      0 ≤ scoreBookmark ("py".toList) ("python".toList) ("u".toList) :=
  claimC3 ("python".toList) ("u".toList) ("py".toList) (by decide)

/-! ## C8: malformed candidates -/

theorem scoreAll_ok (hasPinyin : Bool) (lazy_pinyin : List Char → List (List Char))
    (ql : List Char) :
    ∀ bms : List BmDict,
      (∀ b ∈ bms, (bmGet b ("name".toList)).isSome ∧ (bmGet b ("url".toList)).isSome) →
      ∃ s, scoreAll hasPinyin lazy_pinyin bms ql = Except.ok s := by
  intro bms
  induction bms with
  | nil => intro _; exact ⟨[], rfl⟩
  | cons b rest ih =>
    intro hok
    obtain ⟨h1, h2⟩ := hok b (List.mem_cons_self b rest)
    obtain ⟨n0, hn0⟩ := Option.isSome_iff_exists.mp h1
    obtain ⟨u0, hu0⟩ := Option.isSome_iff_exists.mp h2
    obtain ⟨s, hs⟩ := ih fun b2 hb2 => hok b2 (List.mem_cons_of_mem b hb2)
    by_cases hsc : 0 < scoreBookmark ql (augmentedName hasPinyin lazy_pinyin n0) (lowerL u0)
    · refine ⟨(b, scoreBookmark ql (augmentedName hasPinyin lazy_pinyin n0)
        (lowerL u0)) :: s, ?_⟩
      simp only [scoreAll, hn0, hu0, hs]
      rw [if_pos hsc]
    · refine ⟨s, ?_⟩
      simp only [scoreAll, hn0, hu0, hs]
      rw [if_neg hsc]

/-- C8 (amended): bookmark scoring aborts the whole batch with a `KeyError`
on a record missing `name` or `url` (see the counterexample); a batch of
well-formed records always scores without error, and the SSH domain
tolerates missing fields: every ranked host yields an item and a missing
`Host` key falls back to `"Unknown"`. -/
theorem claimC8 (hasPinyin : Bool) (lazy_pinyin : List Char → List (List Char))
    (bookmarks : List BmDict) (query : List Char)
    (hok : ∀ b ∈ bookmarks,
      (bmGet b ("name".toList)).isSome ∧ (bmGet b ("url".toList)).isSome) :
    (∃ r, search_bookmarks hasPinyin lazy_pinyin bookmarks query = Except.ok r) ∧
      (∀ (hosts : List Host) (q2 : List Char),
        ((generate_feedback hosts q2).1).length = (rankedHosts hosts q2).length) ∧
      hostName [] = ("Unknown".toList) := by
  refine ⟨?_, ?_, rfl⟩
  · unfold search_bookmarks
    by_cases hq : query = []
    · rw [if_pos hq]
      exact ⟨_, rfl⟩
    · rw [if_neg hq]
      obtain ⟨s, hs⟩ := scoreAll_ok hasPinyin lazy_pinyin (lowerL query) bookmarks hok
      rw [hs]
      exact ⟨_, rfl⟩
  · intro hosts q2
    show ((rankedHosts hosts q2).map mkSshItem).length = _
    rw [List.length_map]

theorem claimC8_witness :
    (∃ r, search_bookmarks false (fun _ => [])
        [[(("name".toList), ("A".toList)), (("url".toList), ("u".toList))]]
        ("a".toList) = Except.ok r) ∧
      (∀ (hosts : List Host) (q2 : List Char),
        ((generate_feedback hosts q2).1).length = (rankedHosts hosts q2).length) ∧
      hostName [] = ("Unknown".toList) :=
  claimC8 false (fun _ => [])
    [[(("name".toList), ("A".toList)), (("url".toList), ("u".toList))]]
    ("a".toList) (by decide)

/-- C8 counterexample: one bookmark record without a `name` key makes the
scoring of the whole batch raise (`KeyError`), instead of being excluded
with the rest still scored. -/
theorem claimC8_counterexample :
    search_bookmarks false (fun _ => []) [[(("url".toList), ("u".toList))]]
      ("q".toList) = Except.error () := rfl

/-! ## C2: empty ranked lists -/

/-- C2 (amended): the bookmark and path domains emit exactly one
non-actionable placeholder item when the ranked list (or the candidate set)
is empty; the SSH domain instead emits an empty item list, both when the
config file is missing and when no host survives. -/
theorem claimC2 :
    (∀ (hasPinyin : Bool) (lazy_pinyin : List Char → List (List Char))
        (bookmarks : List BmDict) (query : List Char),
        search_bookmarks hasPinyin lazy_pinyin bookmarks query = Except.ok [] →
        output_alfred_format hasPinyin lazy_pinyin bookmarks query =
          Except.ok [noBookmarksItem]) ∧
      noBookmarksItem.valid = false ∧
      (∀ home ws co hint paths query, paths = [] →
        zoxideMain home ws co hint paths query = [noResultsItem]) ∧
      (∀ home ws co hint paths query,
        calculate_matching_scores hint paths query = [] →
        zoxideMain home ws co hint paths query = [noResultsItem]) ∧
      noResultsItem.valid = false ∧
      (∀ query, ssh_main_items true [] query = []) ∧
      (∀ hosts query, ssh_main_items false hosts query = []) := by
  refine ⟨?_, rfl, ?_, ?_, rfl, ?_, ?_⟩
  · intro hp pin bms query h
    unfold output_alfred_format
    rw [h]
    rfl
  · intro home ws co hint paths query h
    subst h
    rfl
  · intro home ws co hint paths query h
    unfold zoxideMain
    by_cases hp : paths = []
    · rw [if_pos hp]
    · rw [if_neg hp, h]
      rfl
  · intro query
    have h : rankedHosts [] query = [] := by
      unfold rankedHosts
      split
      · simp
      · rfl
    show (rankedHosts [] query).map mkSshItem = []
    rw [h]
    rfl
  · intro hosts query
    rfl

/-- C2 counterexample: in the SSH domain an empty candidate set yields an
empty item list, not a single placeholder item. -/
theorem claimC2_counterexample :
    ssh_main_items true [] ("x".toList) = [] ∧
      (ssh_main_items true [] ("x".toList)).length ≠ 1 := by
  constructor
  · rfl
  · decide

/-! ## C7: mutation of input candidates -/

theorem hGet_hSet_ne (h : Host) (k : List Char) (v : PyVal) (k' : List Char)
    (hne : k' ≠ k) : hGet (hSet h k v) k' = hGet h k' := by
  induction h with
  | nil =>
    show (if k = k' then some v else none) = none
    rw [if_neg fun he => hne he.symm]
  | cons e t ih =>
    simp only [hSet]
    by_cases he : e.1 = k
    · rw [if_pos he]
      show (if e.1 = k' then some v else hGet t k') = _
      have hek : ¬ e.1 = k' := fun h2 => hne (h2.symm.trans he)
      rw [if_neg hek]
      show _ = (if e.1 = k' then some e.2 else hGet t k')
      rw [if_neg hek]
    · rw [if_neg he]
      show (if e.1 = k' then some e.2 else hGet (hSet t k v) k') = _
      by_cases hek : e.1 = k'
      · rw [if_pos hek]
        show _ = (if e.1 = k' then some e.2 else hGet t k')
        rw [if_pos hek]
      · rw [if_neg hek, ih]
        show _ = (if e.1 = k' then some e.2 else hGet t k')
        rw [if_neg hek]

/-- C7 (amended): path candidates are plain strings and bookmark records are
copied before the score is attached, but the SSH ranker mutates its input:
with a non-empty query every input host record gains a `similarity` key
(all other fields unchanged); with an empty query the records are
untouched. -/
theorem claimC7 (hosts : List Host) (query : List Char) :
    (query = [] → (generate_feedback hosts query).2 = hosts) ∧
      (query ≠ [] → (generate_feedback hosts query).2 = hosts.map (addSimilarity query)) ∧
      (∀ (h : Host) (k : List Char), k ≠ ("similarity".toList) →
        hGet (addSimilarity query h) k = hGet h k) := by
  refine ⟨?_, ?_, ?_⟩
  · intro h
    show (if query ≠ [] then hosts.map (addSimilarity query) else hosts) = hosts
    rw [if_neg (by simp [h])]
  · intro h
    show (if query ≠ [] then hosts.map (addSimilarity query) else hosts) = _
    rw [if_pos h]
  · intro h k hk
    exact hGet_hSet_ne h ("similarity".toList) _ k hk

/-- C7 counterexample: ranking one host against the query `"ab"` leaves the
input record with an extra `similarity` field, so it is no longer
field-for-field equal to its pre-invocation value. -/
theorem claimC7_counterexample :
    (generate_feedback [[(("Host".toList), PyVal.s ("ab".toList))]] ("ab".toList)).2 ≠
      [[(("Host".toList), PyVal.s ("ab".toList))]] := by
  intro he
  have h1 : (generate_feedback [[(("Host".toList), PyVal.s ("ab".toList))]]
      ("ab".toList)).2 =
      [[(("Host".toList), PyVal.s ("ab".toList)),
        (("similarity".toList),
          PyVal.f (similarity ("ab".toList) ("ab".toList)))]] := rfl
  rw [h1] at he
  have h2 := congrArg (fun l => (l.headD ([] : Host)).length) he
  simp at h2

/-! ## C10: the SSH connect command -/

/-- C10: every emitted SSH item's action value is exactly `"ssh "` followed
by the host alias; the `User`, `HostName` and `Port` fields never alter the
command (the user-present branch assigns the same string). -/
theorem claimC10 (hosts : List Host) (query : List Char) :
    ((generate_feedback hosts query).1 = (rankedHosts hosts query).map mkSshItem) ∧
      (∀ h : Host, (mkSshItem h).arg = ("ssh ".toList) ++ hostName h) ∧
      (∀ (h : Host) (v : PyVal),
        (mkSshItem (hSet h ("User".toList) v)).arg = (mkSshItem h).arg ∧
          (mkSshItem (hSet h ("HostName".toList) v)).arg = (mkSshItem h).arg ∧
          (mkSshItem (hSet h ("Port".toList) v)).arg = (mkSshItem h).arg) := by
  have harg : ∀ h2 : Host, (mkSshItem h2).arg = sshCommand h2 := fun _ => rfl
  have hcmd : ∀ (h : Host) (v : PyVal) (k : List Char), k ≠ ("Host".toList) →
      k ≠ ("User".toList) → sshCommand (hSet h k v) = sshCommand h := by
    intro h v k hk1 hk2
    unfold sshCommand hostName hostGetStr
    rw [hGet_hSet_ne h k v ("User".toList) fun he => hk2 he.symm,
      hGet_hSet_ne h k v ("Host".toList) fun he => hk1 he.symm]
  refine ⟨rfl, ?_, ?_⟩
  · intro h
    rw [harg]
    unfold sshCommand
    split <;> rfl
  · intro h v
    refine ⟨?_, ?_, ?_⟩
    · rw [harg, harg]
      have hhn : hostName (hSet h ("User".toList) v) = hostName h := by
        unfold hostName hostGetStr
        rw [hGet_hSet_ne h _ v _ (by decide)]
      unfold sshCommand
      rw [hhn, ite_self, ite_self]
    · rw [harg, harg]
      exact hcmd h v _ (by decide) (by decide)
    · rw [harg, harg]
      exact hcmd h v _ (by decide) (by decide)

end MyAlfred
